import Mathlib

/-!
The SIMD vector-addition benchmark of `simm.cpp` and the utilities of `demo_utils`.

A shallow embedding of `src/simm.cpp`: the aligned allocator wrapper, the scalar kernel
`vector_add_normal`, the AVX kernel `vector_add_avx`, the timing harness `measure_time`
and the result check at the end of `main`.  The namespace `DemoUtils` embeds the sorting,
searching, arithmetic and string utilities of `src/demo_utils.c` and `src/demo_utils.cpp`.

Conventions of the embedding.

* A `float*` is a buffer identifier (`Ptr`); `p[i]` is cell `i` of buffer `p`.  Two pointers
  alias exactly when they are equal.  Cells exist at every offset, so a kernel that runs past
  the `n` elements of a buffer keeps running here as it does on the machine; whether an access
  is inside `[0, n)` is read off the recorded event trace.
* `int` counters are integers reduced with `wrap32` after every `++` and `+= 8`.
* `for` loops run on fuel: a loop that is still running when the fuel is spent yields `none`.
* The kernels are written over an arbitrary element type with its addition; the check in
  `main` is written over `FloatVal`, a value-level model of IEEE binary floating point.
-/

namespace Simm

/-! ## Machine integers and loops -/

/-- Reduction of an integer to the range of a 32-bit signed `int`. -/
def wrap32 (x : Int) : Int := (x + 2147483648) % 4294967296 - 2147483648

/-- A C `for`/`while` loop on fuel: `cond` is tested first; when it holds the body `step`
runs and the loop goes round again.  `none` means the fuel ran out with `cond` still true. -/
def forLoop {σ : Type} (cond : σ → Bool) (step : σ → σ) : Nat → σ → Option σ
  | 0, s => if cond s then none else some s
  | fuel + 1, s => if cond s then forLoop cond step fuel (step s) else some s

/-! ## Memory -/

/-- A `float*`: the identifier of the buffer it points to. -/
abbrev Ptr := Nat

/-- What a kernel does to memory, one entry per executed instruction.
`vload p i` is `_mm256_load_ps(&p[i])`, `vstore p i` is `_mm256_store_ps(&p[i], _)`,
`vadd` is `_mm256_add_ps`. -/
inductive Event where
  | load (p : Ptr) (i : Int)
  | store (p : Ptr) (i : Int)
  | vload (p : Ptr) (i : Int)
  | vadd
  | vstore (p : Ptr) (i : Int)
  deriving DecidableEq, Repr

/-- The eight cells `p[i] .. p[i+7]` covered by one 256-bit access at `&p[i]`. -/
def lanes (p : Ptr) (i : Int) : List (Ptr × Int) :=
  (List.range 8).map fun (k : Nat) => (p, i + (k : Int))

/-- Cells read by an instruction. -/
def Event.reads : Event → List (Ptr × Int)
  | .load p i => [(p, i)]
  | .vload p i => lanes p i
  | _ => []

/-- Cells written by an instruction. -/
def Event.writes : Event → List (Ptr × Int)
  | .store p i => [(p, i)]
  | .vstore p i => lanes p i
  | _ => []

/-- Cells read or written by an instruction. -/
def Event.cells (e : Event) : List (Ptr × Int) := e.reads ++ e.writes

/-- Memory: the contents of every buffer and the instructions executed so far, oldest first. -/
structure Mem (α : Type) where
  cells : Ptr → Int → α
  trace : List Event

/-- Scalar read `p[i]`. -/
def Mem.read {α : Type} (m : Mem α) (p : Ptr) (i : Int) : α × Mem α :=
  (m.cells p i, Mem.mk m.cells (m.trace ++ [Event.load p i]))

/-- Scalar write `p[i] = v`. -/
def Mem.write {α : Type} (m : Mem α) (p : Ptr) (i : Int) (v : α) : Mem α :=
  Mem.mk (fun q j => if q = p ∧ j = i then v else m.cells q j) (m.trace ++ [Event.store p i])

/-- A 256-bit register holding eight lanes (`__m256`). -/
abbrev M256 (α : Type) := Fin 8 → α

/-- Aligned vector load `_mm256_load_ps(&p[i])`: lane `k` receives `p[i + k]`. -/
def mm256_load_ps {α : Type} (m : Mem α) (p : Ptr) (i : Int) : M256 α × Mem α :=
  (fun k => m.cells p (i + (k.val : Int)), Mem.mk m.cells (m.trace ++ [Event.vload p i]))

/-- Lane-wise addition `_mm256_add_ps`. -/
def mm256_add_ps {α : Type} (add : α → α → α) (m : Mem α) (x y : M256 α) : M256 α × Mem α :=
  (fun k => add (x k) (y k), Mem.mk m.cells (m.trace ++ [Event.vadd]))

/-- Aligned vector store `_mm256_store_ps(&p[i], v)`: `p[i + k]` receives lane `k`. -/
def mm256_store_ps {α : Type} (m : Mem α) (p : Ptr) (i : Int) (v : M256 α) : Mem α :=
  Mem.mk
    (fun q j =>
      if q = p ∧ i ≤ j ∧ j < i + 8 then v ⟨(j - i).toNat % 8, Nat.mod_lt _ (by decide)⟩
      else m.cells q j)
    (m.trace ++ [Event.vstore p i])

/-! ## The two kernels -/

/-- Loop state of a kernel: the counter `i` and memory. -/
structure KernelState (α : Type) where
  i : Int
  mem : Mem α

/-- Body and increment of the loop of `vector_add_normal`: `c[i] = a[i] + b[i]; i++`. -/
def vector_add_normal_step {α : Type} (add : α → α → α) (a b c : Ptr)
    (s : KernelState α) : KernelState α :=
  let ra := s.mem.read a s.i
  let rb := ra.2.read b s.i
  KernelState.mk (wrap32 (s.i + 1)) (rb.2.write c s.i (add ra.1 rb.1))

/-- The scalar kernel `vector_add_normal(a, b, c, n)`:
`for (int i = 0; i < n; i++) c[i] = a[i] + b[i];` -/
def vector_add_normal {α : Type} (add : α → α → α) (fuel : Nat) (a b c : Ptr) (n : Int)
    (m : Mem α) : Option (Mem α) :=
  (forLoop (fun s => decide (s.i < n)) (vector_add_normal_step add a b c) fuel
    (KernelState.mk 0 m)).map KernelState.mem

/-- Body and increment of the loop of `vector_add_avx`: two vector loads, one vector add,
one vector store, then `i += 8`. -/
def vector_add_avx_step {α : Type} (add : α → α → α) (a b c : Ptr)
    (s : KernelState α) : KernelState α :=
  let va := mm256_load_ps s.mem a s.i
  let vb := mm256_load_ps va.2 b s.i
  let vc := mm256_add_ps add vb.2 va.1 vb.1
  KernelState.mk (wrap32 (s.i + 8)) (mm256_store_ps vc.2 c s.i vc.1)

/-- The AVX kernel `vector_add_avx(a, b, c, n)`:
`for (int i = 0; i < n; i += 8) { va = load(&a[i]); vb = load(&b[i]); store(&c[i], va + vb); }`.
There is no test of `n` before the loop. -/
def vector_add_avx {α : Type} (add : α → α → α) (fuel : Nat) (a b c : Ptr) (n : Int)
    (m : Mem α) : Option (Mem α) :=
  (forLoop (fun s => decide (s.i < n)) (vector_add_avx_step add a b c) fuel
    (KernelState.mk 0 m)).map KernelState.mem

/-- The instructions of the scalar kernel in iteration `i`. -/
def normalEvents (a b c : Ptr) (i : Nat) : List Event :=
  [Event.load a i, Event.load b i, Event.store c i]

/-- The instructions of the AVX kernel in stride number `k` (counter value `8 * k`). -/
def avxEvents (a b c : Ptr) (k : Nat) : List Event :=
  [Event.vload a (8 * (k : Int)), Event.vload b (8 * (k : Int)), Event.vadd,
    Event.vstore c (8 * (k : Int))]

/-- Number of strides executed by a run: the number of vector additions in its trace. -/
def strides (t : List Event) : Nat := t.count Event.vadd

/-- All cells written by a run, in order, with repetitions. -/
def written (t : List Event) : List (Ptr × Int) := t.flatMap Event.writes

/-- A memory for examples: every buffer holds `f p i` at offset `i`; nothing executed yet. -/
def Mem.init {α : Type} (f : Ptr → Int → α) : Mem α := Mem.mk f []

/-- The first `n` cells of buffer `p`. -/
def Mem.toList {α : Type} (m : Mem α) (p : Ptr) (n : Nat) : List α :=
  (List.range n).map fun (i : Nat) => m.cells p (i : Int)


/-! ## Floating-point values -/

/-- A value of an IEEE-754 binary format (`float`, `double`): a NaN, an infinity with its sign
(`neg = true` for `-∞`), or a finite number.  Finite numbers are kept as the rationals they
denote; the two zeros are not told apart. -/
inductive FloatVal where
  | nan
  | inf (neg : Bool)
  | fin (q : ℚ)
  deriving DecidableEq

/-- The rounding of a format: `rnd q` is the value delivered for the exact result `q` of an
operation on finite operands (a finite number of the format, or an infinity on overflow).
The hardware fixes it; the one fact used here is that an exact zero stays zero. -/
structure Rounding where
  rnd : ℚ → FloatVal
  rnd_zero : rnd 0 = FloatVal.fin 0

/-- The rounding of a format in which every result met is representable. -/
def Rounding.exact : Rounding := Rounding.mk FloatVal.fin rfl

/-- IEEE addition. -/
def FloatVal.add (R : Rounding) : FloatVal → FloatVal → FloatVal
  | .nan, _ => .nan
  | _, .nan => .nan
  | .inf s, .inf t => if s = t then .inf s else .nan
  | .inf s, .fin _ => .inf s
  | .fin _, .inf t => .inf t
  | .fin x, .fin y => R.rnd (x + y)

/-- IEEE subtraction. -/
def FloatVal.sub (R : Rounding) : FloatVal → FloatVal → FloatVal
  | .nan, _ => .nan
  | _, .nan => .nan
  | .inf s, .inf t => if s = t then .nan else .inf s
  | .inf s, .fin _ => .inf s
  | .fin _, .inf t => .inf (!t)
  | .fin x, .fin y => R.rnd (x - y)

/-- IEEE division; a finite divisor equal to zero is `+0`. -/
def FloatVal.div (R : Rounding) : FloatVal → FloatVal → FloatVal
  | .nan, _ => .nan
  | _, .nan => .nan
  | .inf _, .inf _ => .nan
  | .inf s, .fin y => .inf (s != decide (y < 0))
  | .fin _, .inf _ => .fin 0
  | .fin x, .fin y =>
    if y = 0 then (if x = 0 then .nan else .inf (decide (x < 0))) else R.rnd (x / y)

/-- Absolute value `std::abs`. -/
def FloatVal.abs : FloatVal → FloatVal
  | .nan => .nan
  | .inf _ => .inf false
  | .fin x => .fin |x|

/-- The comparison `x > y`; false as soon as one side is a NaN. -/
def FloatVal.gt : FloatVal → FloatVal → Bool
  | .nan, _ => false
  | _, .nan => false
  | .inf s, .inf t => !s && t
  | .inf s, .fin _ => !s
  | .fin _, .inf t => t
  | .fin x, .fin y => decide (y < x)

/-- Conversion of an `int` to `double` (exact). -/
def FloatVal.ofInt (k : Int) : FloatVal := .fin (k : ℚ)

/-- The `double` literal `1e-5`: the binary64 number nearest to 1/100000. -/
def epsilon : FloatVal := .fin (5902958103587057 / 590295810358705651712)

/-- The test of the check in `main`: `std::abs(x - y) > 1e-5`. -/
def exceeds (R : Rounding) (x y : FloatVal) : Bool :=
  FloatVal.gt (FloatVal.abs (FloatVal.sub R x y)) epsilon

/-! ## The result check of `main` -/

/-- State of the check loop: counter `i`, the flag `correct`, and whether `break` was taken. -/
structure CheckState where
  i : Int
  correct : Bool
  broke : Bool
  deriving DecidableEq, Repr

/-- One pass of the check loop:
`if (std::abs(c[i] - c_verify[i]) > 1e-5) { correct = false; break; }` then `i++`. -/
def main_check_step (R : Rounding) (m : Mem FloatVal) (c c_verify : Ptr)
    (s : CheckState) : CheckState :=
  if exceeds R (m.cells c s.i) (m.cells c_verify s.i) then CheckState.mk s.i false true
  else CheckState.mk (wrap32 (s.i + 1)) s.correct false

/-- The check loop of `main` (`bool correct = true; for (int i = 0; i < size; i++) ...`) over
the buffers `c` and `c_verify`. -/
def main_check (R : Rounding) (fuel : Nat) (m : Mem FloatVal) (c c_verify : Ptr)
    (size : Int) : Option CheckState :=
  forLoop (fun s => !s.broke && decide (s.i < size)) (main_check_step R m c c_verify) fuel
    (CheckState.mk 0 true false)

/-- The verification section of `main`: the scalar kernel into `c`, the AVX kernel into
`c_verify`, then the check loop.  `size` is `1024 * 1024` in `main`. -/
def main_verification (R : Rounding) (fuel : Nat) (a b c c_verify : Ptr) (size : Int)
    (m : Mem FloatVal) : Option CheckState :=
  (vector_add_normal (FloatVal.add R) fuel a b c size m).bind fun m1 =>
    (vector_add_avx (FloatVal.add R) fuel a b c_verify size m1).bind fun m2 =>
      main_check R fuel m2 c c_verify size

/-- The input data of `main`: `a[i] = i % 100`, `b[i] = (i * 2) % 100`; other buffers hold
`junk`. -/
def main_data (a b : Ptr) (junk : Ptr → Int → FloatVal) : Mem FloatVal :=
  Mem.mk
    (fun p i =>
      if p = a then FloatVal.ofInt (Int.tmod i 100)
      else if p = b then FloatVal.ofInt (Int.tmod (wrap32 (i * 2)) 100)
      else junk p i)
    []

/-! ## The timing harness -/

/-- Loop state of `measure_time`: the counter, the state the callee works on, and the
argument lists of the calls made so far. -/
structure TimerState (σ : Type) where
  i : Int
  world : σ
  calls : List (Ptr × Ptr × Ptr × Int)

/-- What `measure_time` leaves behind: the state after the calls, the calls made, and the
returned `double`. -/
structure Timing (σ : Type) where
  world : σ
  calls : List (Ptr × Ptr × Ptr × Int)
  average : FloatVal

/-- One pass of the loop of `measure_time`: `f(a, b, c, n); i++`. -/
def measure_time_step {σ : Type} (f : Ptr → Ptr → Ptr → Int → σ → σ) (a b c : Ptr) (n : Int)
    (s : TimerState σ) : TimerState σ :=
  TimerState.mk (wrap32 (s.i + 1)) (f a b c n s.world) (s.calls ++ [(a, b, c, n)])

/-- The harness `measure_time(f, a, b, c, n, iterations)`.  `elapsed` is `duration.count()`,
the time between the two clock readings in milliseconds as a `double`; the result is
`duration.count() / iterations`.  There is no test of `iterations`. -/
def measure_time {σ : Type} (R : Rounding) (f : Ptr → Ptr → Ptr → Int → σ → σ) (fuel : Nat)
    (a b c : Ptr) (n iterations : Int) (elapsed : FloatVal) (w : σ) : Option (Timing σ) :=
  (forLoop (fun s => decide (s.i < iterations)) (measure_time_step f a b c n) fuel
    (TimerState.mk 0 w [])).map fun s =>
      Timing.mk s.world s.calls (FloatVal.div R elapsed (FloatVal.ofInt iterations))

/-! ## Aligned allocation -/

/-- Modelled from the spec: `_mm_malloc(bytes, align)` is declared in the compiler's
`<immintrin.h>`, not in the repository.  Its contract, as the spec words it for `allocate`:
the address returned is `align`-aligned (the null address `0` on failure included).  The
allocator is a parameter, working on a heap of type `H`. -/
def MmMallocContract {H : Type} (mm_malloc : H → Nat → Nat → Nat × H) : Prop :=
  ∀ h bytes align, (mm_malloc h bytes align).1 % align = 0

/-- The wrapper `aligned_alloc_float(size)`: `_mm_malloc(size * sizeof(float), 32)`, the
product taken in 64-bit `size_t` arithmetic, the pointer returned as it is. -/
def aligned_alloc_float {H : Type} (mm_malloc : H → Nat → Nat → Nat × H) (h : H)
    (size : Nat) : Nat × H :=
  mm_malloc h (size * 4 % 18446744073709551616) 32

/-- An allocator for examples: the heap is the next free address; a request is served at the
next multiple of `align`. -/
def bump_malloc (h bytes align : Nat) : Nat × Nat :=
  ((h + align - 1) / align * align, (h + align - 1) / align * align + bytes)

/-! ## Example data -/

/-- Three buffers for examples: buffer `0` holds `0, 1, 2, ...`, buffer `1` holds
`0, 2, 4, ...`, and every other buffer holds NaNs. -/
def example_mem : Mem FloatVal :=
  Mem.init fun p i => if p = 0 then .fin i else if p = 1 then .fin (2 * i) else .nan

/-- Two buffers `2` and `3` for examples: all zeros, except that buffer `3` holds `1` at
index 5. -/
def example_mismatch : Mem FloatVal :=
  Mem.init fun p i => if p = 3 ∧ i = 5 then .fin 1 else .fin 0

end Simm

namespace DemoUtils

open Simm

/-! ## Arrays of `int` -/

/-- Reduction of an integer to the range of a 64-bit signed `long long`. -/
def wrap64 (x : Int) : Int := (x + 9223372036854775808) % 18446744073709551616 - 9223372036854775808

/-- An `int arr[]`: the value of the cell at every offset.  Which offsets belong to the array
is said by the `size` passed along with it. -/
abbrev IntArray := Int → Int

/-- The array holding the elements of `l` at offsets `0, 1, ...` and `0` elsewhere. -/
def IntArray.ofList (l : List Int) : IntArray :=
  fun i => if 0 ≤ i then l.getD i.toNat 0 else 0

/-- The first `size` cells of an array. -/
def IntArray.toList (arr : IntArray) (size : Nat) : List Int :=
  (List.range size).map fun (i : Nat) => arr (i : Int)

/-- The assignment `arr[i] = v`. -/
def IntArray.set (arr : IntArray) (i v : Int) : IntArray :=
  fun k => if k = i then v else arr k

/-- The three assignments `temp = arr[x]; arr[x] = arr[y]; arr[y] = temp;`. -/
def swap (arr : IntArray) (x y : Int) : IntArray :=
  let temp := arr x
  (arr.set x (arr y)).set y temp

/-! ## `quick_sort` and `array_sort` -/

/-- State of the partition loop of `quick_sort`: the counters `i`, `j` and the array. -/
structure PartitionState where
  i : Int
  j : Int
  arr : IntArray

/-- One pass of the partition loop:
`if (arr[j] <= pivot) { i++; swap arr[i], arr[j]; }` then `j++`. -/
def partition_step (pivot : Int) (s : PartitionState) : PartitionState :=
  if s.arr s.j ≤ pivot then
    PartitionState.mk (wrap32 (s.i + 1)) (wrap32 (s.j + 1)) (swap s.arr (wrap32 (s.i + 1)) s.j)
  else PartitionState.mk s.i (wrap32 (s.j + 1)) s.arr

/-- The function `quick_sort(arr, low, high)`.  The fuel bounds both the passes of the
partition loop and the depth of the recursion; `none` means it ran out. -/
def quick_sort : Nat → IntArray → Int → Int → Option IntArray
  | 0, arr, low, high => if low < high then none else some arr
  | fuel + 1, arr, low, high =>
    if low < high then
      (forLoop (fun s => decide (s.j < high)) (partition_step (arr high)) (fuel + 1)
        (PartitionState.mk (wrap32 (low - 1)) low arr)).bind fun s =>
          (quick_sort fuel (swap s.arr (wrap32 (s.i + 1)) high) low
            (wrap32 (wrap32 (s.i + 1) - 1))).bind fun arr2 =>
              quick_sort fuel arr2 (wrap32 (wrap32 (s.i + 1) + 1)) high
    else some arr

/-- The function `array_sort(arr, size)`: `quick_sort(arr, 0, size - 1)`. -/
def array_sort (fuel : Nat) (arr : IntArray) (size : Int) : Option IntArray :=
  quick_sort fuel arr 0 (wrap32 (size - 1))

/-- The array of `demo_array_operations`: `{1, 5, 3, 8, 2, 9, 4}`. -/
def demo_array : IntArray := IntArray.ofList [1, 5, 3, 8, 2, 9, 4]

/-- Sortedness of the cells `low .. high` in non-decreasing order. -/
def SortedOn (arr : IntArray) (low high : Int) : Prop :=
  ∀ x y, low ≤ x → x ≤ y → y ≤ high → arr x ≤ arr y

/-- The array `arr2` holds the contents of `arr1` rearranged within the cells `low .. high`:
a permutation `σ` of the offsets that moves nothing outside `low .. high` takes one to the
other. -/
def PermOn (arr1 arr2 : IntArray) (low high : Int) : Prop :=
  ∃ σ : Equiv.Perm Int, (∀ k, k < low ∨ high < k → σ k = k) ∧ ∀ k, arr2 k = arr1 (σ k)

/-! ## `binary_search` -/

/-- State of the loop of `binary_search`: the bounds, the value returned from inside the loop
(if any), and the offsets of `arr` read so far. -/
structure SearchState where
  left : Int
  right : Int
  result : Option Int
  reads : List Int

/-- One pass of the loop of `binary_search`. -/
def binary_search_step (arr : IntArray) (target : Int) (s : SearchState) : SearchState :=
  let mid := wrap32 (s.left + Int.tdiv (wrap32 (s.right - s.left)) 2)
  if arr mid = target then SearchState.mk s.left s.right (some mid) (s.reads ++ [mid])
  else if arr mid < target then
    SearchState.mk (wrap32 (mid + 1)) s.right none (s.reads ++ [mid, mid])
  else SearchState.mk s.left (wrap32 (mid - 1)) none (s.reads ++ [mid, mid])

/-- The function `binary_search(arr, size, target)`: the value returned, and the offsets
read. -/
def binary_search (fuel : Nat) (arr : IntArray) (size target : Int) : Option (Int × List Int) :=
  (forLoop (fun s => s.result.isNone && decide (s.left ≤ s.right))
    (binary_search_step arr target) fuel
    (SearchState.mk 0 (wrap32 (size - 1)) none [])).map fun s =>
      (s.result.getD (-1), s.reads)

/-! ## `math_gcd`, `math_is_prime`, `MathUtils` -/

/-- The function `math_gcd(a, b)`: `while (b != 0) { temp = b; b = a % b; a = temp; }`. -/
def math_gcd (fuel : Nat) (a b : Int) : Option Int :=
  (forLoop (fun s : Int × Int => decide (s.2 ≠ 0)) (fun s => (s.2, Int.tmod s.1 s.2)) fuel
    (a, b)).map Prod.fst

/-- The method `MathUtils::gcd(a, b)`, the same loop as `math_gcd`. -/
def MathUtils.gcd (fuel : Nat) (a b : Int) : Option Int :=
  (forLoop (fun s : Int × Int => decide (s.2 ≠ 0)) (fun s => (s.2, Int.tmod s.1 s.2)) fuel
    (a, b)).map Prod.fst

/-- State of the loop of `math_is_prime`: the counter and the value returned from inside the
loop (if any). -/
structure PrimeState where
  i : Int
  result : Option Bool
  deriving DecidableEq, Repr

/-- One pass of the loop of `math_is_prime`: `if (n % i == 0) return false;` then `i++`. -/
def math_is_prime_step (n : Int) (s : PrimeState) : PrimeState :=
  if Int.tmod n s.i = 0 then PrimeState.mk s.i (some false)
  else PrimeState.mk (wrap32 (s.i + 1)) none

/-- The function `math_is_prime(n)`; the test `i * i <= n` is made on the product reduced to
32 bits. -/
def math_is_prime (fuel : Nat) (n : Int) : Option Bool :=
  if n ≤ 1 then some false
  else
    (forLoop (fun s => s.result.isNone && decide (wrap32 (s.i * s.i) ≤ n))
      (math_is_prime_step n) fuel (PrimeState.mk 2 none)).map fun s => s.result.getD true

/-- The method `MathUtils::isPrime(n)`, the same code as `math_is_prime`. -/
def MathUtils.isPrime (fuel : Nat) (n : Int) : Option Bool :=
  if n ≤ 1 then some false
  else
    (forLoop (fun s => s.result.isNone && decide (wrap32 (s.i * s.i) ≤ n))
      (math_is_prime_step n) fuel (PrimeState.mk 2 none)).map fun s => s.result.getD true

/-- The exception class `DemoException`, carrying its message. -/
structure DemoException where
  message : String
  deriving DecidableEq, Repr

/-- The method `MathUtils::factorial(n)`: `.error` is a thrown `DemoException`, `.ok` a
returned `long long`; the product `n * factorial(n - 1)` is reduced to 64 bits.  The fuel
bounds the depth of the recursion. -/
def MathUtils.factorial : Nat → Int → Option (Except DemoException Int)
  | 0, n =>
    if n < 0 then some (.error (DemoException.mk "Factorial of negative number"))
    else if n = 0 then some (.ok 1)
    else none
  | fuel + 1, n =>
    if n < 0 then some (.error (DemoException.mk "Factorial of negative number"))
    else if n = 0 then some (.ok 1)
    else
      match MathUtils.factorial fuel (wrap32 (n - 1)) with
      | none => none
      | some (.error e) => some (.error e)
      | some (.ok v) => some (.ok (wrap64 (n * v)))

/-! ## `StringUtils::split` and `StringUtils::join` -/

/-- The character-by-character reading of `std::getline`: characters go to the token until
the delimiter is met (it is consumed and dropped) or the stream ends.  Returns the token and
what is left of the stream. -/
def getline_read (delim : Char) : List Char → List Char → List Char × List Char
  | [], token => (token, [])
  | c :: cs, token => if c = delim then (token, cs) else getline_read delim cs (token ++ [c])

/-- The call `std::getline(ss, token, delim)` on a stream with `ss` left to read: it fails
(`none`) when nothing is left, since no character can be extracted; otherwise it yields the
token and the rest of the stream. -/
def getline (ss : List Char) (delim : Char) : Option (List Char × List Char) :=
  match ss with
  | [] => none
  | c :: cs => some (getline_read delim (c :: cs) [])

/-- The loop of `StringUtils::split`:
`while (std::getline(ss, token, delimiter)) tokens.push_back(token);`. -/
def StringUtils.split_loop (delimiter : Char) :
    Nat → List Char → List (List Char) → Option (List (List Char))
  | 0, ss, tokens =>
    match getline ss delimiter with
    | none => some tokens
    | some _ => none
  | fuel + 1, ss, tokens =>
    match getline ss delimiter with
    | none => some tokens
    | some (token, rest) => StringUtils.split_loop delimiter fuel rest (tokens ++ [token])

/-- The method `StringUtils::split(str, delimiter)`. -/
def StringUtils.split (fuel : Nat) (str : List Char) (delimiter : Char) :
    Option (List (List Char)) :=
  StringUtils.split_loop delimiter fuel str []

/-- One pass of the loop of `StringUtils::join`:
`if (i > 0) result += delimiter; result += parts[i];` then `++i`. -/
def StringUtils.join_step (parts : List (List Char)) (delimiter : List Char)
    (s : Nat × List Char) : Nat × List Char :=
  (s.1 + 1, (if 0 < s.1 then s.2 ++ delimiter else s.2) ++ parts.getD s.1 [])

/-- The method `StringUtils::join(parts, delimiter)`. -/
def StringUtils.join (fuel : Nat) (parts : List (List Char)) (delimiter : List Char) :
    Option (List Char) :=
  (forLoop (fun s : Nat × List Char => decide (s.1 < parts.length))
    (StringUtils.join_step parts delimiter) fuel (0, [])).map Prod.snd

/-- The string `str` with a final `delimiter`, if there is one, removed. -/
def dropFinal (delimiter : Char) (str : List Char) : List Char :=
  if str.getLast? = some delimiter then str.dropLast else str

/-- The strings of `parts` written one after the other with `delimiter` between neighbours. -/
def joined (delimiter : List Char) : List (List Char) → List Char
  | [] => []
  | p :: ps => p ++ ps.flatMap fun q => delimiter ++ q

/-- The array of `demo_array_operations` after sorting: `{1, 2, 3, 4, 5, 8, 9}`. -/
def sorted_array : IntArray := IntArray.ofList [1, 2, 3, 4, 5, 8, 9]

/-- Modular exponentiation by repeated squaring: `powMod p fuel b e acc` is
`acc * b ^ e % p` when `e < 2 ^ fuel`.  It serves to certify that 2147483647 is prime. -/
def powMod (p : Nat) : Nat → Nat → Nat → Nat → Nat
  | 0, _, _, acc => acc % p
  | fuel + 1, b, e, acc =>
    if e = 0 then acc % p
    else powMod p fuel (b * b % p) (e / 2) (if e % 2 = 1 then acc * b % p else acc)

end DemoUtils

namespace Simm

/-! ## Loop lemmas -/

theorem wrap32_of_range (x : Int) (h1 : -2147483648 ≤ x) (h2 : x ≤ 2147483647) :
    wrap32 x = x := by
  unfold wrap32
  omega

theorem forLoop_iterate {σ : Type} (cond : σ → Bool) (step : σ → σ) :
    ∀ (k fuel : Nat) (s : σ), (∀ j, j < k → cond (step^[j] s) = true) →
      cond (step^[k] s) = false → k ≤ fuel → forLoop cond step fuel s = some (step^[k] s) := by
  intro k
  induction k with
  | zero =>
    intro fuel s _ hk _
    have hs : cond s = false := by simpa using hk
    cases fuel <;> simp [forLoop, hs]
  | succ k ih =>
    intro fuel s hlt hk hle
    have h0 : cond s = true := by simpa using hlt 0 (Nat.succ_pos k)
    obtain ⟨f, rfl⟩ : ∃ f, fuel = f + 1 := ⟨fuel - 1, by omega⟩
    have hrec := ih f (step s)
      (fun j hj => by simpa [Function.iterate_succ_apply] using hlt (j + 1) (by omega))
      (by simpa [Function.iterate_succ_apply] using hk) (by omega)
    simpa [forLoop, h0, Function.iterate_succ_apply] using hrec

theorem normal_iterate {α : Type} (add : α → α → α) (a b c : Ptr) (m : Mem α) :
    ∀ k : Nat, (k : Int) ≤ 2147483647 →
      ((vector_add_normal_step add a b c)^[k] (KernelState.mk 0 m)).i = (k : Int) ∧
      (∀ q j, ((vector_add_normal_step add a b c)^[k] (KernelState.mk 0 m)).mem.cells q j =
        if q = c ∧ 0 ≤ j ∧ j < (k : Int) then add (m.cells a j) (m.cells b j)
        else m.cells q j) ∧
      ((vector_add_normal_step add a b c)^[k] (KernelState.mk 0 m)).mem.trace =
        m.trace ++ (List.range k).flatMap (normalEvents a b c) := by
  intro k
  induction k with
  | zero =>
    intro _
    refine ⟨rfl, ?_, by simp⟩
    intro q j
    rw [if_neg]
    · rfl
    · rintro ⟨_, h1, h2⟩
      have h3 : j < 0 := by exact_mod_cast h2
      omega
  | succ k ih =>
    intro hk
    obtain ⟨hi, hc, ht⟩ := ih (by omega)
    rw [Function.iterate_succ_apply']
    generalize (vector_add_normal_step add a b c)^[k] (KernelState.mk 0 m) = s at hi hc ht
    refine ⟨?_, ?_, ?_⟩
    · simp only [vector_add_normal_step, hi]
      rw [wrap32_of_range _ (by omega) (by omega)]
      push_cast
      rfl
    · intro q j
      simp only [vector_add_normal_step, Mem.read, Mem.write, hi, hc]
      have ha : ¬ (a = c ∧ 0 ≤ (k : Int) ∧ (k : Int) < (k : Int)) := by omega
      have hb : ¬ (b = c ∧ 0 ≤ (k : Int) ∧ (k : Int) < (k : Int)) := by omega
      rw [if_neg ha, if_neg hb]
      by_cases h1 : q = c ∧ j = (k : Int)
      · have h2 : q = c ∧ 0 ≤ j ∧ j < ((k + 1 : Nat) : Int) :=
          ⟨h1.1, by omega, by omega⟩
        rw [if_pos h1, if_pos h2, h1.2]
      · rw [if_neg h1]
        by_cases h3 : q = c ∧ 0 ≤ j ∧ j < (k : Int)
        · have h2 : q = c ∧ 0 ≤ j ∧ j < ((k + 1 : Nat) : Int) :=
            ⟨h3.1, h3.2.1, by omega⟩
          rw [if_pos h3, if_pos h2]
        · have h2 : ¬ (q = c ∧ 0 ≤ j ∧ j < ((k + 1 : Nat) : Int)) := by
            rintro ⟨hq, h0, hlt⟩
            by_cases hj : j = (k : Int)
            · exact h1 ⟨hq, hj⟩
            · exact h3 ⟨hq, h0, by omega⟩
          rw [if_neg h3, if_neg h2]
    · simp only [vector_add_normal_step, Mem.read, Mem.write, hi, ht]
      simp [List.range_succ, normalEvents]

theorem avx_iterate {α : Type} (add : α → α → α) (a b c : Ptr) (m : Mem α) :
    ∀ k : Nat, 8 * (k : Int) ≤ 2147483647 →
      ((vector_add_avx_step add a b c)^[k] (KernelState.mk 0 m)).i = 8 * (k : Int) ∧
      (∀ q j, ((vector_add_avx_step add a b c)^[k] (KernelState.mk 0 m)).mem.cells q j =
        if q = c ∧ 0 ≤ j ∧ j < 8 * (k : Int) then add (m.cells a j) (m.cells b j)
        else m.cells q j) ∧
      ((vector_add_avx_step add a b c)^[k] (KernelState.mk 0 m)).mem.trace =
        m.trace ++ (List.range k).flatMap (avxEvents a b c) := by
  intro k
  induction k with
  | zero =>
    intro _
    refine ⟨rfl, ?_, by simp⟩
    intro q j
    rw [if_neg]
    · rfl
    · rintro ⟨_, h1, h2⟩
      have h3 : j < 0 := by simpa using h2
      omega
  | succ k ih =>
    intro hk
    have hk' : 8 * ((k : Int) + 1) ≤ 2147483647 := by exact_mod_cast hk
    obtain ⟨hi, hc, ht⟩ := ih (by omega)
    rw [Function.iterate_succ_apply']
    generalize (vector_add_avx_step add a b c)^[k] (KernelState.mk 0 m) = s at hi hc ht
    refine ⟨?_, ?_, ?_⟩
    · simp only [vector_add_avx_step, hi]
      rw [wrap32_of_range _ (by omega) (by omega)]
      push_cast
      ring
    · intro q j
      simp only [vector_add_avx_step, mm256_load_ps, mm256_add_ps, mm256_store_ps, hi, hc]
      by_cases h1 : q = c ∧ 8 * (k : Int) ≤ j ∧ j < 8 * (k : Int) + 8
      · have hidx : 8 * (k : Int) + (((j - 8 * (k : Int)).toNat % 8 : Nat) : Int) = j := by
          omega
        have h2 : q = c ∧ 0 ≤ j ∧ j < 8 * ((k + 1 : Nat) : Int) :=
          ⟨h1.1, by omega, by push_cast; omega⟩
        have ha : ¬ (a = c ∧ 0 ≤ j ∧ j < 8 * (k : Int)) := by
          rintro ⟨_, _, h⟩
          omega
        have hb : ¬ (b = c ∧ 0 ≤ j ∧ j < 8 * (k : Int)) := by
          rintro ⟨_, _, h⟩
          omega
        rw [if_pos h1, if_pos h2, hidx, if_neg ha, if_neg hb]
      · rw [if_neg h1]
        by_cases h3 : q = c ∧ 0 ≤ j ∧ j < 8 * (k : Int)
        · have h2 : q = c ∧ 0 ≤ j ∧ j < 8 * ((k + 1 : Nat) : Int) :=
            ⟨h3.1, h3.2.1, by push_cast; omega⟩
          rw [if_pos h3, if_pos h2]
        · have h2 : ¬ (q = c ∧ 0 ≤ j ∧ j < 8 * ((k + 1 : Nat) : Int)) := by
            rintro ⟨hq, h0, hlt⟩
            have hlt' : j < 8 * (k : Int) + 8 := by push_cast at hlt; omega
            by_cases hj : 8 * (k : Int) ≤ j
            · exact h1 ⟨hq, hj, hlt'⟩
            · exact h3 ⟨hq, h0, by omega⟩
          rw [if_neg h3, if_neg h2]
    · simp only [vector_add_avx_step, mm256_load_ps, mm256_add_ps, mm256_store_ps, hi, ht]
      simp [List.range_succ, avxEvents]

theorem forLoop_invariant {σ : Type} (cond : σ → Bool) (step : σ → σ) (P : σ → Prop)
    (hstep : ∀ s, P s → cond s = true → P (step s)) :
    ∀ (fuel : Nat) (s r : σ), P s → forLoop cond step fuel s = some r → P r := by
  intro fuel
  induction fuel with
  | zero =>
    intro s r hs h
    by_cases hc : cond s = true
    · simp [forLoop, hc] at h
    · simp only [forLoop, hc] at h
      cases h
      exact hs
  | succ fuel ih =>
    intro s r hs h
    by_cases hc : cond s = true
    · simp only [forLoop, hc, if_true] at h
      exact ih (step s) r (hstep s hs hc) h
    · simp only [forLoop, hc] at h
      cases h
      exact hs

/-- What a completed run of the scalar kernel leaves: `c[j] = a[j] + b[j]` (operands taken
before the call) for `0 ≤ j < n`, every other cell as before, and three instructions per
index appended to the trace. -/
theorem normal_run {α : Type} (add : α → α → α) (a b c : Ptr) (n : Int) (m : Mem α)
    (fuel : Nat) (hn : n ≤ 2147483647) (hf : n.toNat ≤ fuel) :
    ∃ m1, vector_add_normal add fuel a b c n m = some m1 ∧
      (∀ q j, m1.cells q j =
        if q = c ∧ 0 ≤ j ∧ j < n then add (m.cells a j) (m.cells b j) else m.cells q j) ∧
      m1.trace = m.trace ++ (List.range n.toNat).flatMap (normalEvents a b c) := by
  have hk : ((n.toNat : Nat) : Int) ≤ 2147483647 := by omega
  obtain ⟨hi, hc, ht⟩ := normal_iterate add a b c m n.toNat hk
  have hrun := forLoop_iterate (fun s : KernelState α => decide (s.i < n))
    (vector_add_normal_step add a b c) n.toNat fuel (KernelState.mk 0 m)
    (by
      intro j hj
      have := (normal_iterate add a b c m j (by omega)).1
      simp only [decide_eq_true_eq, this]
      omega)
    (by
      simp only [decide_eq_false_iff_not, hi]
      omega)
    hf
  refine ⟨_, by simp only [vector_add_normal, hrun, Option.map_some'], ?_, ht⟩
  intro q j
  rw [hc q j]
  by_cases h : q = c ∧ 0 ≤ j ∧ j < n
  · rw [if_pos h, if_pos ⟨h.1, h.2.1, by omega⟩]
  · rw [if_neg h, if_neg]
    rintro ⟨h1, h2, h3⟩
    exact h ⟨h1, h2, by omega⟩

/-- What a completed run of the AVX kernel leaves, for any `n` up to the last value at which
`i += 8` stays in range: `⌈n / 8⌉` strides, `c[j] = a[j] + b[j]` for `0 ≤ j < 8 * ⌈n / 8⌉`,
every other cell as before, four instructions per stride appended to the trace. -/
theorem avx_run {α : Type} (add : α → α → α) (a b c : Ptr) (n : Int) (m : Mem α)
    (fuel : Nat) (hn : n ≤ 2147483640) (hf : (n.toNat + 7) / 8 ≤ fuel) :
    ∃ m1, vector_add_avx add fuel a b c n m = some m1 ∧
      (∀ q j, m1.cells q j =
        if q = c ∧ 0 ≤ j ∧ j < 8 * (((n.toNat + 7) / 8 : Nat) : Int)
        then add (m.cells a j) (m.cells b j) else m.cells q j) ∧
      m1.trace = m.trace ++ (List.range ((n.toNat + 7) / 8)).flatMap (avxEvents a b c) := by
  have hk : 8 * (((n.toNat + 7) / 8 : Nat) : Int) ≤ 2147483647 := by omega
  obtain ⟨hi, hc, ht⟩ := avx_iterate add a b c m ((n.toNat + 7) / 8) hk
  have hrun := forLoop_iterate (fun s : KernelState α => decide (s.i < n))
    (vector_add_avx_step add a b c) ((n.toNat + 7) / 8) fuel (KernelState.mk 0 m)
    (by
      intro j hj
      have := (avx_iterate add a b c m j (by omega)).1
      simp only [decide_eq_true_eq, this]
      omega)
    (by
      simp only [decide_eq_false_iff_not, hi]
      omega)
    hf
  exact ⟨_, by simp only [vector_add_avx, hrun, Option.map_some'], hc, ht⟩

/-! ## The scalar kernel computes the element-wise sum -/

/-- C1. For every `int` `n`, once `vector_add_normal(a, b, c, n)` has run (it returns as soon
as the fuel covers `n` passes), `c[i] = a[i] + b[i]` holds at every index `0 ≤ i < n`, with
the addition of the element type and the operands as they were before the call. -/
theorem vector_add_normal_spec {α : Type} (add : α → α → α) (a b c : Ptr) (n : Int)
    (m : Mem α) (fuel : Nat) (hn : n ≤ 2147483647) (hf : n.toNat ≤ fuel) :
    ∃ m1, vector_add_normal add fuel a b c n m = some m1 ∧
      ∀ i, 0 ≤ i → i < n → m1.cells c i = add (m.cells a i) (m.cells b i) := by
  obtain ⟨m1, hrun, hc, _⟩ := normal_run add a b c n m fuel hn hf
  refine ⟨m1, hrun, ?_⟩
  intro i h0 h1
  rw [hc c i, if_pos ⟨rfl, h0, h1⟩]

/-- The scenario of C1: `n = 8`, `a = [0..7]`, `b = [0, 2, .., 14]` gives
`c = [0, 3, 6, 9, 12, 15, 18, 21]`. -/
theorem vector_add_normal_spec_witness :
    (8 : Int) ≤ 2147483647 ∧ (8 : Int).toNat ≤ 8 ∧
    ∃ m1, vector_add_normal (FloatVal.add Rounding.exact) 8 0 1 2 8 example_mem = some m1 ∧
      (∀ i, 0 ≤ i → i < 8 → m1.cells 2 i =
        FloatVal.add Rounding.exact (example_mem.cells 0 i) (example_mem.cells 1 i)) ∧
      m1.toList 2 8 =
        [.fin 0, .fin 3, .fin 6, .fin 9, .fin 12, .fin 15, .fin 18, .fin 21] := by
  refine ⟨by decide, by decide, ?_⟩
  obtain ⟨m1, hrun, hc⟩ :=
    vector_add_normal_spec (FloatVal.add Rounding.exact) 0 1 2 8 example_mem 8
      (by decide) (by decide)
  refine ⟨m1, hrun, hc, ?_⟩
  simp [Mem.toList, List.range_succ, hc, example_mem, Mem.init, FloatVal.add, Rounding.exact]
  norm_num

/-! ## The result check -/

theorem forLoop_done {σ : Type} (cond : σ → Bool) (step : σ → σ) (fuel : Nat) (s : σ)
    (h : cond s = false) : forLoop cond step fuel s = some s := by
  cases fuel <;> simp [forLoop, h]

/-- A value never exceeds the tolerance against itself: `x - x` is zero or a NaN, and a
comparison with a NaN is false. -/
theorem exceeds_self (R : Rounding) (x : FloatVal) : exceeds R x x = false := by
  cases x with
  | nan => rfl
  | inf s => simp [exceeds, FloatVal.sub, FloatVal.abs, FloatVal.gt]
  | fin q =>
    simp only [exceeds, FloatVal.sub, sub_self, R.rnd_zero, FloatVal.abs, abs_zero, epsilon,
      FloatVal.gt, decide_eq_false_iff_not, not_lt]
    norm_num

/-- The check loop started in any state that has not taken `break`: it stops either at the
first index from `s.i` on whose difference exceeds the tolerance, with `correct = false`, or
at the end of the range with `correct` as it was. -/
theorem main_check_scan (R : Rounding) (m : Mem FloatVal) (c cv : Ptr) (n : Int)
    (hn : n ≤ 2147483647) :
    ∀ (fuel : Nat) (s : CheckState), s.broke = false → 0 ≤ s.i → (n - s.i).toNat ≤ fuel →
      ∃ r, forLoop (fun s => !s.broke && decide (s.i < n)) (main_check_step R m c cv) fuel s
          = some r ∧
        ((r.broke = true ∧ r.correct = false ∧ s.i ≤ r.i ∧ r.i < n ∧
            exceeds R (m.cells c r.i) (m.cells cv r.i) = true ∧
            ∀ j, s.i ≤ j → j < r.i → exceeds R (m.cells c j) (m.cells cv j) = false) ∨
          (r.broke = false ∧ r.correct = s.correct ∧ r.i = max s.i n ∧
            ∀ j, s.i ≤ j → j < n → exceeds R (m.cells c j) (m.cells cv j) = false)) := by
  intro fuel
  induction fuel with
  | zero =>
    intro s hb h0 hf
    have hge : n ≤ s.i := by omega
    refine ⟨s, forLoop_done _ _ _ _ (by simp [hb]; omega), Or.inr ⟨hb, rfl, by omega, ?_⟩⟩
    intro j h1 h2
    omega
  | succ fuel ih =>
    intro s hb h0 hf
    by_cases hlt : s.i < n
    · have hcond : (!s.broke && decide (s.i < n)) = true := by simp [hb, hlt]
      by_cases hex : exceeds R (m.cells c s.i) (m.cells cv s.i) = true
      · refine ⟨CheckState.mk s.i false true, ?_, Or.inl ⟨rfl, rfl, le_refl _, hlt, hex, ?_⟩⟩
        · simp only [forLoop, hcond, if_true, main_check_step, hex]
          exact forLoop_done _ _ _ _ (by simp)
        · intro j h1 h2
          have : j < s.i := h2
          omega
      · have hex' : exceeds R (m.cells c s.i) (m.cells cv s.i) = false := by
          simpa using hex
        have hw : wrap32 (s.i + 1) = s.i + 1 := wrap32_of_range _ (by omega) (by omega)
        obtain ⟨r, hr, hcase⟩ := ih (CheckState.mk (s.i + 1) s.correct false) rfl
          (by show 0 ≤ s.i + 1; omega) (by show (n - (s.i + 1)).toNat ≤ fuel; omega)
        refine ⟨r, ?_, ?_⟩
        · simp only [forLoop, hcond, if_true, main_check_step, hex', hw]
          exact hr
        · rcases hcase with ⟨h1, h2, h3, h4, h5, h6⟩ | ⟨h1, h2, h3, h4⟩
          · refine Or.inl ⟨h1, h2, ?_, h4, h5, ?_⟩
            · have : s.i + 1 ≤ r.i := h3
              omega
            · intro j hj1 hj2
              by_cases hj : j = s.i
              · rw [hj]; exact hex'
              · exact h6 j (by show s.i + 1 ≤ j; omega) hj2
          · refine Or.inr ⟨h1, h2, ?_, ?_⟩
            · have : r.i = max (s.i + 1) n := h3
              omega
            · intro j hj1 hj2
              by_cases hj : j = s.i
              · rw [hj]; exact hex'
              · exact h4 j (by show s.i + 1 ≤ j; omega) hj2
    · refine ⟨s, forLoop_done _ _ _ _ (by simp [hb]; omega), Or.inr ⟨hb, rfl, by omega, ?_⟩⟩
      intro j h1 h2
      omega

/-- When no index of `[0, n)` exceeds the tolerance the check runs to the end and leaves
`correct = true`. -/
theorem main_check_clean (R : Rounding) (m : Mem FloatVal) (c cv : Ptr) (n : Int)
    (fuel : Nat) (hn : n ≤ 2147483647) (hf : n.toNat ≤ fuel)
    (hall : ∀ i, 0 ≤ i → i < n → exceeds R (m.cells c i) (m.cells cv i) = false) :
    ∃ r, main_check R fuel m c cv n = some r ∧ r.correct = true ∧ r.broke = false := by
  obtain ⟨r, hr, hcase⟩ := main_check_scan R m c cv n hn fuel (CheckState.mk 0 true false) rfl
    (le_refl _) (by show (n - 0).toNat ≤ fuel; simpa using hf)
  refine ⟨r, hr, ?_⟩
  rcases hcase with ⟨_, _, h3, h4, h5, _⟩ | ⟨h1, h2, _, _⟩
  · rw [hall r.i h3 h4] at h5
    cases h5
  · exact ⟨h2, h1⟩

/-- C4. The check loop of `main` over `c1`, `c2` and `n` ends with `correct = false` exactly
when some index of `[0, n)` has `|c1[i] - c2[i]| > 1e-5`; it then stopped by `break` at the
lowest such index; and when no index exceeds the tolerance it ends with `correct = true`. -/
theorem main_check_spec (R : Rounding) (m : Mem FloatVal) (c1 c2 : Ptr) (n : Int)
    (fuel : Nat) (hn : n ≤ 2147483647) (hf : n.toNat ≤ fuel) :
    ∃ r, main_check R fuel m c1 c2 n = some r ∧
      (r.correct = false ↔
        ∃ i, 0 ≤ i ∧ i < n ∧ exceeds R (m.cells c1 i) (m.cells c2 i) = true) ∧
      (r.correct = false →
        r.broke = true ∧ 0 ≤ r.i ∧ r.i < n ∧
          exceeds R (m.cells c1 r.i) (m.cells c2 r.i) = true ∧
          ∀ j, 0 ≤ j → j < r.i → exceeds R (m.cells c1 j) (m.cells c2 j) = false) ∧
      ((∀ i, 0 ≤ i → i < n → exceeds R (m.cells c1 i) (m.cells c2 i) = false) →
        r.correct = true) := by
  obtain ⟨r, hr, hcase⟩ := main_check_scan R m c1 c2 n hn fuel (CheckState.mk 0 true false) rfl
    (le_refl _) (by show (n - 0).toNat ≤ fuel; simpa using hf)
  refine ⟨r, hr, ?_⟩
  rcases hcase with ⟨h1, h2, h3, h4, h5, h6⟩ | ⟨h1, h2, h3, h4⟩
  · refine ⟨⟨fun _ => ⟨r.i, h3, h4, h5⟩, fun _ => h2⟩, fun _ => ⟨h1, h3, h4, h5, h6⟩, ?_⟩
    intro hall
    rw [hall r.i h3 h4] at h5
    cases h5
  · have hc : r.correct = true := h2
    refine ⟨⟨fun h => ?_, fun ⟨i, hi0, hi1, hi2⟩ => ?_⟩, fun h => ?_, fun _ => hc⟩
    · rw [hc] at h
      cases h
    · rw [h4 i hi0 hi1] at hi2
      cases hi2
    · rw [hc] at h
      cases h

/-- C5. The check is reflexive: comparing a buffer with itself ends with `correct = true`,
whatever the buffer holds (NaNs and infinities included) and whatever `n` is. -/
theorem main_check_refl (R : Rounding) (m : Mem FloatVal) (c : Ptr) (n : Int) (fuel : Nat)
    (hn : n ≤ 2147483647) (hf : n.toNat ≤ fuel) :
    ∃ r, main_check R fuel m c c n = some r ∧ r.correct = true := by
  obtain ⟨r, hr, hc, _⟩ :=
    main_check_clean R m c c n fuel hn hf (fun i _ _ => exceeds_self R (m.cells c i))
  exact ⟨r, hr, hc⟩

/-- Two buffers that differ at index 5 only: the check stops there with `correct = false`. -/
theorem main_check_spec_witness :
    (16 : Int) ≤ 2147483647 ∧ (16 : Int).toNat ≤ 16 ∧
    ∃ r, main_check Rounding.exact 16 example_mismatch 2 3 16 = some r ∧
      r = CheckState.mk 5 false true ∧
      (r.correct = false ↔ ∃ i, 0 ≤ i ∧ i < 16 ∧
        exceeds Rounding.exact (example_mismatch.cells 2 i) (example_mismatch.cells 3 i)
          = true) := by
  refine ⟨by decide, by decide, ?_⟩
  obtain ⟨r, hr, hiff, hlow, _⟩ :=
    main_check_spec Rounding.exact example_mismatch 2 3 16 16 (by decide) (by decide)
  have hval : ∀ i : Int, exceeds Rounding.exact (example_mismatch.cells 2 i)
      (example_mismatch.cells 3 i) = decide (i = 5) := by
    intro i
    by_cases hi : i = 5
    · simp only [example_mismatch, Mem.init, hi, exceeds, FloatVal.sub, Rounding.exact,
        FloatVal.abs, epsilon, FloatVal.gt]
      norm_num
    · simp only [example_mismatch, Mem.init, hi, exceeds, FloatVal.sub, Rounding.exact,
        FloatVal.abs, epsilon, FloatVal.gt]
      norm_num
  have hfalse : r.correct = false := hiff.2 ⟨5, by decide, by decide, by rw [hval]; decide⟩
  obtain ⟨hb, _, _, hex, _⟩ := hlow hfalse
  have hi : r.i = 5 := by
    rw [hval] at hex
    simpa using hex
  refine ⟨r, hr, ?_, hiff⟩
  cases r
  simp_all

/-- A buffer of NaNs compared with itself passes the check. -/
theorem main_check_refl_witness :
    (8 : Int) ≤ 2147483647 ∧ (8 : Int).toNat ≤ 8 ∧
    ∃ r, main_check Rounding.exact 8 example_mem 2 2 8 = some r ∧ r.correct = true :=
  ⟨by decide, by decide, main_check_refl Rounding.exact example_mem 2 8 8 (by decide) (by decide)⟩

/-! ## The AVX kernel agrees with the scalar kernel -/

/-- C2. For every positive multiple `n` of 8 and buffers `c`, `c_verify` with `c` distinct
from the inputs `a`, `b`: after `vector_add_normal(a, b, c, n)` and then
`vector_add_avx(a, b, c_verify, n)`, as `main` runs them, `c_verify[i] = c[i]` at every index
`i < n`, the difference is within `1e-5`, and the check loop of `main` ends with
`correct = true`. -/
theorem vector_add_avx_agrees (R : Rounding) (a b c c_verify : Ptr) (n : Int)
    (m : Mem FloatVal) (fuel : Nat) (hpos : 0 < n) (h8 : n % 8 = 0) (hn : n ≤ 2147483647)
    (hca : c ≠ a) (hcb : c ≠ b) (hf : n.toNat ≤ fuel) :
    ∃ m1 m2 r, vector_add_normal (FloatVal.add R) fuel a b c n m = some m1 ∧
      vector_add_avx (FloatVal.add R) fuel a b c_verify n m1 = some m2 ∧
      (∀ i, 0 ≤ i → i < n →
        m2.cells c_verify i = m2.cells c i ∧
        m2.cells c i = FloatVal.add R (m.cells a i) (m.cells b i) ∧
        exceeds R (m2.cells c i) (m2.cells c_verify i) = false) ∧
      main_verification R fuel a b c c_verify n m = some r ∧ r.correct = true := by
  obtain ⟨m1, hrun1, hc1, _⟩ := normal_run (FloatVal.add R) a b c n m fuel hn hf
  obtain ⟨m2, hrun2, hc2, _⟩ :=
    avx_run (FloatVal.add R) a b c_verify n m1 fuel (by omega) (by omega)
  have hK : 8 * (((n.toNat + 7) / 8 : Nat) : Int) = n := by omega
  rw [hK] at hc2
  have ha : ∀ i, m1.cells a i = m.cells a i := by
    intro i
    rw [hc1 a i, if_neg]
    rintro ⟨h, _⟩
    exact hca h.symm
  have hb : ∀ i, m1.cells b i = m.cells b i := by
    intro i
    rw [hc1 b i, if_neg]
    rintro ⟨h, _⟩
    exact hcb h.symm
  have hcv : ∀ i, 0 ≤ i → i < n →
      m2.cells c_verify i = FloatVal.add R (m.cells a i) (m.cells b i) := by
    intro i h0 h1
    rw [hc2 c_verify i, if_pos ⟨rfl, h0, h1⟩, ha, hb]
  have hcc : ∀ i, 0 ≤ i → i < n →
      m2.cells c i = FloatVal.add R (m.cells a i) (m.cells b i) := by
    intro i h0 h1
    rw [hc2 c i]
    by_cases h : c = c_verify ∧ 0 ≤ i ∧ i < n
    · rw [if_pos h, ha, hb]
    · rw [if_neg h, hc1 c i, if_pos ⟨rfl, h0, h1⟩]
  have hall : ∀ i, 0 ≤ i → i < n → exceeds R (m2.cells c i) (m2.cells c_verify i) = false := by
    intro i h0 h1
    rw [hcv i h0 h1, hcc i h0 h1]
    exact exceeds_self R _
  obtain ⟨r, hr, hcorrect, _⟩ := main_check_clean R m2 c c_verify n fuel hn hf hall
  refine ⟨m1, m2, r, hrun1, hrun2, ?_, ?_, hcorrect⟩
  · intro i h0 h1
    exact ⟨by rw [hcv i h0 h1, hcc i h0 h1], hcc i h0 h1, hall i h0 h1⟩
  · simp only [main_verification, hrun1, hrun2, Option.bind_eq_bind, Option.some_bind, hr]

/-- The run of `main`: `n = 1048576`, `a[i] = i % 100`, `b[i] = (i * 2) % 100`, the four
buffers being `0, 1, 2, 3`; the check ends with `correct = true`. -/
theorem vector_add_avx_agrees_witness :
    (0 : Int) < 1048576 ∧ (1048576 : Int) % 8 = 0 ∧ (1048576 : Int) ≤ 2147483647 ∧
    (2 : Ptr) ≠ 0 ∧ (2 : Ptr) ≠ 1 ∧ (1048576 : Int).toNat ≤ 1048576 ∧
    ∃ r, main_verification Rounding.exact 1048576 0 1 2 3 1048576
        (main_data 0 1 fun _ _ => FloatVal.nan) = some r ∧ r.correct = true := by
  refine ⟨by decide, by decide, by decide, by decide, by decide, by decide, ?_⟩
  obtain ⟨_, _, r, _, _, _, hr, hc⟩ :=
    vector_add_avx_agrees Rounding.exact 0 1 2 3 1048576 (main_data 0 1 fun _ _ => FloatVal.nan)
      1048576 (by decide) (by decide) (by decide) (by decide) (by decide) (by decide)
  exact ⟨r, hr, hc⟩

/-! ## The accesses of the AVX kernel -/

theorem mem_lanes (p : Ptr) (i : Int) (x : Ptr × Int) :
    x ∈ lanes p i ↔ x.1 = p ∧ i ≤ x.2 ∧ x.2 < i + 8 := by
  obtain ⟨q, j⟩ := x
  simp only [lanes, List.mem_map, List.mem_range, Prod.mk.injEq]
  constructor
  · rintro ⟨k, hk, rfl, rfl⟩
    exact ⟨rfl, by omega, by omega⟩
  · rintro ⟨rfl, h1, h2⟩
    exact ⟨(j - i).toNat, by omega, rfl, by omega⟩

theorem count_lanes (p : Ptr) (i j : Int) :
    (lanes p i).count (p, j) = if i ≤ j ∧ j < i + 8 then 1 else 0 := by
  by_cases h : i ≤ j ∧ j < i + 8
  · rw [if_pos h]
    obtain ⟨k, hk⟩ : ∃ k : Nat, j = i + (k : Int) := ⟨(j - i).toNat, by omega⟩
    have hk8 : k < 8 := by omega
    subst hk
    simp only [lanes, List.range_succ, List.range_zero, List.nil_append, List.cons_append,
      List.map_cons, List.map_nil, List.count_cons, List.count_nil, Prod.mk.injEq,
      beq_iff_eq, true_and, add_right_inj, Nat.cast_inj, Nat.cast_ofNat, Nat.cast_zero,
      Nat.cast_one]
    interval_cases k <;> simp
  · rw [if_neg h]
    refine List.count_eq_zero_of_not_mem ?_
    intro hmem
    have := (mem_lanes p i (p, j)).1 hmem
    exact h ⟨this.2.1, this.2.2⟩

theorem written_append (t1 t2 : List Event) : written (t1 ++ t2) = written t1 ++ written t2 := by
  simp [written, List.flatMap_append]

theorem written_avxEvents (a b c : Ptr) (k : Nat) :
    written (avxEvents a b c k) = lanes c (8 * (k : Int)) := by
  simp [written, avxEvents, Event.writes, List.flatMap_cons]

theorem strides_avx (a b c : Ptr) (K : Nat) :
    strides ((List.range K).flatMap (avxEvents a b c)) = K := by
  induction K with
  | zero => rfl
  | succ K ih =>
    unfold strides at ih ⊢
    rw [List.range_succ, List.flatMap_append, List.count_append, ih]
    simp [avxEvents]

theorem count_written_avx (a b c : Ptr) (K : Nat) (j : Int) :
    (written ((List.range K).flatMap (avxEvents a b c))).count (c, j) =
      if 0 ≤ j ∧ j < 8 * (K : Int) then 1 else 0 := by
  induction K with
  | zero =>
    rw [if_neg]
    · rfl
    · rintro ⟨h1, h2⟩
      have : j < 0 := by simpa using h2
      omega
  | succ K ih =>
    rw [List.range_succ, List.flatMap_append, written_append, List.count_append, ih]
    have hlast : written ([K].flatMap (avxEvents a b c)) = lanes c (8 * (K : Int)) := by
      simp [written_avxEvents]
    rw [hlast, count_lanes]
    push_cast
    by_cases h1 : 0 ≤ j ∧ j < 8 * (K : Int)
    · rw [if_pos h1, if_neg (by omega), if_pos ⟨h1.1, by omega⟩]
    · rw [if_neg h1]
      by_cases h2 : 8 * (K : Int) ≤ j ∧ j < 8 * (K : Int) + 8
      · rw [if_pos h2, if_pos ⟨by omega, by omega⟩]
      · rw [if_neg h2, if_neg]
        rintro ⟨h3, h4⟩
        by_cases h5 : j < 8 * (K : Int)
        · exact h1 ⟨h3, h5⟩
        · exact h2 ⟨by omega, by omega⟩

theorem mem_avx_trace (a b c : Ptr) (K : Nat) (e : Event)
    (he : e ∈ (List.range K).flatMap (avxEvents a b c)) :
    ∃ k : Nat, k < K ∧ (e = Event.vload a (8 * (k : Int)) ∨ e = Event.vload b (8 * (k : Int)) ∨
      e = Event.vadd ∨ e = Event.vstore c (8 * (k : Int))) := by
  obtain ⟨k, hk, hmem⟩ := List.mem_flatMap.1 he
  refine ⟨k, List.mem_range.1 hk, ?_⟩
  simpa [avxEvents] using hmem

/-- C10. When `n` is a non-negative multiple of 8, `vector_add_avx` runs exactly `n / 8`
strides; every cell it loads is a cell of `a` or `b` with index in `[0, n)`, every cell it
stores is a cell of `c` with index in `[0, n)`; and every index of `c` in `[0, n)` is stored
exactly once. -/
theorem vector_add_avx_in_bounds {α : Type} (add : α → α → α) (a b c : Ptr) (n : Int)
    (m : Mem α) (fuel : Nat) (h0 : 0 ≤ n) (h8 : n % 8 = 0) (hn : n ≤ 2147483647)
    (hf : n.toNat / 8 ≤ fuel) :
    ∃ m1 ev, vector_add_avx add fuel a b c n m = some m1 ∧ m1.trace = m.trace ++ ev ∧
      strides ev = n.toNat / 8 ∧
      (∀ e ∈ ev, ∀ x ∈ e.reads, (x.1 = a ∨ x.1 = b) ∧ 0 ≤ x.2 ∧ x.2 < n) ∧
      (∀ e ∈ ev, ∀ x ∈ e.writes, x.1 = c ∧ 0 ≤ x.2 ∧ x.2 < n) ∧
      (∀ j, 0 ≤ j → j < n → (written ev).count (c, j) = 1) := by
  have hK : (n.toNat + 7) / 8 = n.toNat / 8 := by omega
  obtain ⟨m1, hrun, _, ht⟩ := avx_run add a b c n m fuel (by omega) (by omega)
  rw [hK] at ht
  have hn8 : 8 * ((n.toNat / 8 : Nat) : Int) = n := by omega
  refine ⟨m1, _, hrun, ht, strides_avx a b c _, ?_, ?_, ?_⟩
  · intro e he x hx
    obtain ⟨k, hk, hcase⟩ := mem_avx_trace a b c _ e he
    have hk8 : 8 * (k : Int) + 8 ≤ n := by omega
    rcases hcase with rfl | rfl | rfl | rfl
    · have := (mem_lanes a _ x).1 hx
      exact ⟨Or.inl this.1, by omega, by omega⟩
    · have := (mem_lanes b _ x).1 hx
      exact ⟨Or.inr this.1, by omega, by omega⟩
    · simp [Event.reads] at hx
    · simp [Event.reads] at hx
  · intro e he x hx
    obtain ⟨k, hk, hcase⟩ := mem_avx_trace a b c _ e he
    have hk8 : 8 * (k : Int) + 8 ≤ n := by omega
    rcases hcase with rfl | rfl | rfl | rfl
    · simp [Event.writes] at hx
    · simp [Event.writes] at hx
    · simp [Event.writes] at hx
    · have := (mem_lanes c _ x).1 hx
      exact ⟨this.1, by omega, by omega⟩
  · intro j hj0 hj1
    rw [count_written_avx, hn8, if_pos ⟨hj0, hj1⟩]

/-- One stride over two 8-element buffers: a run for `n = 8`. -/
theorem vector_add_avx_in_bounds_witness :
    (0 : Int) ≤ 8 ∧ (8 : Int) % 8 = 0 ∧ (8 : Int) ≤ 2147483647 ∧ (8 : Int).toNat / 8 ≤ 1 ∧
    ∃ m1 ev, vector_add_avx (FloatVal.add Rounding.exact) 1 0 1 2 8 example_mem = some m1 ∧
      m1.trace = example_mem.trace ++ ev ∧ strides ev = (8 : Int).toNat / 8 ∧
      (∀ e ∈ ev, ∀ x ∈ e.reads, (x.1 = 0 ∨ x.1 = 1) ∧ 0 ≤ x.2 ∧ x.2 < 8) ∧
      (∀ e ∈ ev, ∀ x ∈ e.writes, x.1 = 2 ∧ 0 ≤ x.2 ∧ x.2 < 8) ∧
      (∀ j : Int, 0 ≤ j → j < 8 → (written ev).count (2, j) = 1) :=
  ⟨by decide, by decide, by decide, by decide,
    vector_add_avx_in_bounds (FloatVal.add Rounding.exact) 0 1 2 8 example_mem 1
      (by decide) (by decide) (by decide) (by decide)⟩

/-! ## A length that is not a multiple of 8 -/

/-- C3, refuted at `n = 10`. `vector_add_avx` returns normally after two strides: it has
loaded `a[0..15]` and `b[0..15]` and stored `c[0..15]`, so elements were read and written,
`c` was changed, and the second stride reached the indices `10..15` past the ten elements. -/
theorem vector_add_avx_size_check_counterexample :
    ∃ m1, vector_add_avx (FloatVal.add Rounding.exact) 2 0 1 2 10 example_mem = some m1 ∧
      m1.trace = [Event.vload 0 0, Event.vload 1 0, Event.vadd, Event.vstore 2 0,
        Event.vload 0 8, Event.vload 1 8, Event.vadd, Event.vstore 2 8] ∧
      example_mem.toList 2 16 = List.replicate 16 FloatVal.nan ∧
      m1.toList 2 16 = [.fin 0, .fin 3, .fin 6, .fin 9, .fin 12, .fin 15, .fin 18, .fin 21,
        .fin 24, .fin 27, .fin 30, .fin 33, .fin 36, .fin 39, .fin 42, .fin 45] := by
  obtain ⟨m1, hrun, hc, ht⟩ :=
    avx_run (FloatVal.add Rounding.exact) 0 1 2 10 example_mem 2 (by decide) (by decide)
  refine ⟨m1, hrun, ?_, ?_, ?_⟩
  · rw [ht]
    simp [example_mem, Mem.init, avxEvents, List.range_succ]
  · simp [Mem.toList, List.range_succ, example_mem, Mem.init, List.replicate]
  · have hK : 8 * ((((10 : Int).toNat + 7) / 8 : Nat) : Int) = 16 := by decide
    rw [hK] at hc
    simp [Mem.toList, List.range_succ, hc, example_mem, Mem.init, FloatVal.add, Rounding.exact]
    norm_num

/-- C3 as amended. `vector_add_avx` does not test `n`: for `n` not a multiple of 8 (and at
most 2147483640, so that `i += 8` stays in range) it returns normally after `⌈n / 8⌉` full
strides, having set `c[j] = a[j] + b[j]` for `0 ≤ j < 8 * ⌈n / 8⌉` and nothing else.  For
`n > 0` the last stride therefore stores `c[n]`, one past the `n` elements; for `n < 0` no
instruction is executed and memory is as before. -/
theorem vector_add_avx_unchecked {α : Type} (add : α → α → α) (a b c : Ptr) (n : Int)
    (m : Mem α) (fuel : Nat) (h8 : n % 8 ≠ 0) (hn : n ≤ 2147483640)
    (hf : (n.toNat + 7) / 8 ≤ fuel) :
    ∃ m1 ev, vector_add_avx add fuel a b c n m = some m1 ∧ m1.trace = m.trace ++ ev ∧
      strides ev = (n.toNat + 7) / 8 ∧
      (∀ q j, m1.cells q j =
        if q = c ∧ 0 ≤ j ∧ j < 8 * (((n.toNat + 7) / 8 : Nat) : Int)
        then add (m.cells a j) (m.cells b j) else m.cells q j) ∧
      (0 < n → (c, n) ∈ written ev) ∧
      (n < 0 → ev = [] ∧ m1 = m) := by
  obtain ⟨m1, hrun, hc, ht⟩ := avx_run add a b c n m fuel hn hf
  refine ⟨m1, _, hrun, ht, strides_avx a b c _, hc, ?_, ?_⟩
  · intro hpos
    have hcount := count_written_avx a b c ((n.toNat + 7) / 8) n
    rw [if_pos ⟨by omega, by omega⟩] at hcount
    exact List.count_pos_iff.1 (by omega)
  · intro hneg
    have hK : (n.toNat + 7) / 8 = 0 := by omega
    rw [hK] at ht hc ⊢
    refine ⟨rfl, ?_⟩
    obtain ⟨cells1, trace1⟩ := m1
    obtain ⟨cells0, trace0⟩ := m
    simp only [List.range_zero, List.flatMap_nil, List.append_nil] at ht
    have hcells : cells1 = cells0 := by
      funext q j
      have := hc q j
      rw [if_neg] at this
      · exact this
      · rintro ⟨_, h1, h2⟩
        have : j < 0 := by simpa using h2
        omega
    rw [hcells, ht]

/-- The amended C3 at `n = 10`: two strides, `c[10]` is stored. -/
theorem vector_add_avx_unchecked_witness :
    (10 : Int) % 8 ≠ 0 ∧ (10 : Int) ≤ 2147483640 ∧ ((10 : Int).toNat + 7) / 8 ≤ 2 ∧
    ∃ m1 ev, vector_add_avx (FloatVal.add Rounding.exact) 2 0 1 2 10 example_mem = some m1 ∧
      m1.trace = example_mem.trace ++ ev ∧ strides ev = 2 ∧ (2, (10 : Int)) ∈ written ev := by
  refine ⟨by decide, by decide, by decide, ?_⟩
  obtain ⟨m1, ev, hrun, ht, hs, _, hw, _⟩ :=
    vector_add_avx_unchecked (FloatVal.add Rounding.exact) 0 1 2 10 example_mem 2
      (by decide) (by decide) (by decide)
  exact ⟨m1, ev, hrun, ht, hs, hw (by decide)⟩

/-! ## The kernels leave their inputs alone -/

theorem normal_step_frame {α : Type} (add : α → α → α) (a b c q : Ptr) (hq : q ≠ c)
    (s : KernelState α) (j : Int) :
    (vector_add_normal_step add a b c s).mem.cells q j = s.mem.cells q j := by
  simp only [vector_add_normal_step, Mem.read, Mem.write]
  rw [if_neg]
  rintro ⟨h, _⟩
  exact hq h

theorem avx_step_frame {α : Type} (add : α → α → α) (a b c q : Ptr) (hq : q ≠ c)
    (s : KernelState α) (j : Int) :
    (vector_add_avx_step add a b c s).mem.cells q j = s.mem.cells q j := by
  simp only [vector_add_avx_step, mm256_load_ps, mm256_add_ps, mm256_store_ps]
  rw [if_neg]
  rintro ⟨h, _⟩
  exact hq h

/-- C8. With `c` a buffer other than `a` and `b`, whenever `vector_add_normal(a, b, c, n)` or
`vector_add_avx(a, b, c, n)` returns, for any `n` at all, every element of `a` and of `b` is
as it was before the call; and the calls do return: the scalar kernel for every `int` `n`,
the AVX kernel for every `n ≤ 2147483640` (every multiple of 8 among them). -/
theorem kernels_preserve_inputs {α : Type} (add : α → α → α) (a b c : Ptr) (n : Int)
    (m : Mem α) (ha : a ≠ c) (hb : b ≠ c) :
    (∀ fuel m1, vector_add_normal add fuel a b c n m = some m1 →
      ∀ j, m1.cells a j = m.cells a j ∧ m1.cells b j = m.cells b j) ∧
    (∀ fuel m1, vector_add_avx add fuel a b c n m = some m1 →
      ∀ j, m1.cells a j = m.cells a j ∧ m1.cells b j = m.cells b j) ∧
    (n ≤ 2147483647 → ∃ m1, vector_add_normal add n.toNat a b c n m = some m1) ∧
    (n ≤ 2147483640 → ∃ m1, vector_add_avx add n.toNat a b c n m = some m1) := by
  refine ⟨?_, ?_, ?_, ?_⟩
  · intro fuel m1 hrun j
    simp only [vector_add_normal, Option.map_eq_some'] at hrun
    obtain ⟨r, hr, rfl⟩ := hrun
    exact forLoop_invariant _ _
      (fun s : KernelState α => ∀ j, s.mem.cells a j = m.cells a j ∧
        s.mem.cells b j = m.cells b j)
      (fun s hs _ j => by
        rw [normal_step_frame add a b c a ha, normal_step_frame add a b c b hb]
        exact hs j)
      fuel _ r (fun _ => ⟨rfl, rfl⟩) hr j
  · intro fuel m1 hrun j
    simp only [vector_add_avx, Option.map_eq_some'] at hrun
    obtain ⟨r, hr, rfl⟩ := hrun
    exact forLoop_invariant _ _
      (fun s : KernelState α => ∀ j, s.mem.cells a j = m.cells a j ∧
        s.mem.cells b j = m.cells b j)
      (fun s hs _ j => by
        rw [avx_step_frame add a b c a ha, avx_step_frame add a b c b hb]
        exact hs j)
      fuel _ r (fun _ => ⟨rfl, rfl⟩) hr j
  · intro hn
    obtain ⟨m1, hrun, _⟩ := normal_run add a b c n m n.toNat hn (le_refl _)
    exact ⟨m1, hrun⟩
  · intro hn
    obtain ⟨m1, hrun, _⟩ := avx_run add a b c n m n.toNat hn (by omega)
    exact ⟨m1, hrun⟩

/-- The kernels run on the example buffers `a = 0`, `b = 1`, `c = 2` with `n = 8`. -/
theorem kernels_preserve_inputs_witness :
    (0 : Ptr) ≠ 2 ∧ (1 : Ptr) ≠ 2 ∧
    (∃ m1, vector_add_normal (FloatVal.add Rounding.exact) 8 0 1 2 8 example_mem = some m1 ∧
      ∀ j, m1.cells 0 j = example_mem.cells 0 j ∧ m1.cells 1 j = example_mem.cells 1 j) ∧
    (∃ m1, vector_add_avx (FloatVal.add Rounding.exact) 8 0 1 2 8 example_mem = some m1 ∧
      ∀ j, m1.cells 0 j = example_mem.cells 0 j ∧ m1.cells 1 j = example_mem.cells 1 j) := by
  obtain ⟨h1, h2, h3, h4⟩ :=
    kernels_preserve_inputs (FloatVal.add Rounding.exact) 0 1 2 8 example_mem
      (by decide) (by decide)
  obtain ⟨m1, hm1⟩ := h3 (by decide)
  obtain ⟨m2, hm2⟩ := h4 (by decide)
  exact ⟨by decide, by decide, ⟨m1, hm1, h1 _ m1 hm1⟩, ⟨m2, hm2, h2 _ m2 hm2⟩⟩

/-! ## The timing harness -/

theorem measure_iterate {σ : Type} (f : Ptr → Ptr → Ptr → Int → σ → σ) (a b c : Ptr) (n : Int)
    (w : σ) :
    ∀ k : Nat, (k : Int) ≤ 2147483647 →
      (measure_time_step f a b c n)^[k] (TimerState.mk 0 w []) =
        TimerState.mk (k : Int) ((f a b c n)^[k] w) (List.replicate k (a, b, c, n)) := by
  intro k
  induction k with
  | zero => intro _; rfl
  | succ k ih =>
    intro hk
    rw [Function.iterate_succ_apply', ih (by omega)]
    simp only [measure_time_step]
    rw [wrap32_of_range _ (by omega) (by omega), Function.iterate_succ_apply',
      List.replicate_succ']
    push_cast
    rfl

/-- A run of the harness: after `iterations` passes (none when `iterations ≤ 0`) it returns
the quotient of the elapsed time by `iterations`. -/
theorem measure_run {σ : Type} (R : Rounding) (f : Ptr → Ptr → Ptr → Int → σ → σ)
    (a b c : Ptr) (n iterations : Int) (elapsed : FloatVal) (w : σ) (fuel : Nat)
    (hn : iterations ≤ 2147483647) (hf : iterations.toNat ≤ fuel) :
    measure_time R f fuel a b c n iterations elapsed w =
      some (Timing.mk ((f a b c n)^[iterations.toNat] w)
        (List.replicate iterations.toNat (a, b, c, n))
        (FloatVal.div R elapsed (FloatVal.ofInt iterations))) := by
  have hrun := forLoop_iterate (fun s : TimerState σ => decide (s.i < iterations))
    (measure_time_step f a b c n) iterations.toNat fuel (TimerState.mk 0 w [])
    (by
      intro j hj
      rw [measure_iterate f a b c n w j (by omega)]
      simp only [decide_eq_true_eq]
      omega)
    (by
      rw [measure_iterate f a b c n w _ (by omega)]
      simp only [decide_eq_false_iff_not]
      omega)
    hf
  simp only [measure_time, hrun, Option.map_some',
    measure_iterate f a b c n w iterations.toNat (by omega)]

/-- C6, refuted. With 0.25 ms between the clock readings, `measure_time` called with
`iterations = 0` returns normally, without a call of `f`, the result `+∞` of a division by
zero; called with `iterations = -2` it returns the negative value `-0.125`. -/
theorem measure_time_check_counterexample :
    measure_time Rounding.exact (fun _ _ _ _ (w : Nat) => w + 1) 0 0 1 2 8 0
        (FloatVal.fin (1 / 4)) 0 = some (Timing.mk 0 [] (FloatVal.inf false)) ∧
    measure_time Rounding.exact (fun _ _ _ _ (w : Nat) => w + 1) 0 0 1 2 8 (-2)
        (FloatVal.fin (1 / 4)) 0 = some (Timing.mk 0 [] (FloatVal.fin (-1 / 8))) := by
  constructor
  · simp [measure_time, forLoop, FloatVal.div, FloatVal.ofInt]
  · simp [measure_time, forLoop, FloatVal.div, FloatVal.ofInt, Rounding.exact]
    norm_num

/-- C6 as amended. `measure_time` does not test `iterations`: for `iterations ≤ 0` it returns
normally without calling `f`, and the value returned is the floating-point quotient
`elapsed / iterations`; for `iterations = 0` that quotient is a NaN or an infinity, never a
finite number. -/
theorem measure_time_unchecked {σ : Type} (R : Rounding) (f : Ptr → Ptr → Ptr → Int → σ → σ)
    (a b c : Ptr) (n iterations : Int) (elapsed : FloatVal) (w : σ) (fuel : Nat)
    (h : iterations ≤ 0) :
    measure_time R f fuel a b c n iterations elapsed w =
      some (Timing.mk w [] (FloatVal.div R elapsed (FloatVal.ofInt iterations))) ∧
    (iterations = 0 →
      ∀ q, FloatVal.div R elapsed (FloatVal.ofInt iterations) ≠ FloatVal.fin q) := by
  constructor
  · have h0 : iterations.toNat = 0 := by omega
    have := measure_run R f a b c n iterations elapsed w fuel (by omega) (by omega)
    rw [this, h0]
    rfl
  · rintro rfl q
    cases elapsed with
    | nan => simp [FloatVal.div, FloatVal.ofInt]
    | inf s => simp [FloatVal.div, FloatVal.ofInt]
    | fin x =>
      by_cases hx : x = 0
      · simp [FloatVal.div, FloatVal.ofInt, hx]
      · simp [FloatVal.div, FloatVal.ofInt, hx]

/-- The amended C6 at `iterations = 0` with no time elapsed: the result is a NaN. -/
theorem measure_time_unchecked_witness :
    (0 : Int) ≤ 0 ∧
    measure_time Rounding.exact (fun _ _ _ _ (w : Nat) => w + 1) 0 0 1 2 8 0
        (FloatVal.fin 0) 0 =
      some (Timing.mk 0 [] (FloatVal.div Rounding.exact (FloatVal.fin 0) (FloatVal.ofInt 0))) :=
  ⟨by decide,
    (measure_time_unchecked Rounding.exact (fun _ _ _ _ (w : Nat) => w + 1) 0 1 2 8 0
      (FloatVal.fin 0) 0 0 (by decide)).1⟩

/-- C7. For every `iterations ≥ 1`, `measure_time(f, a, b, c, n, iterations)` calls `f`
exactly `iterations` times, each call with the arguments `(a, b, c, n)`, each call working
on what the previous one left. -/
theorem measure_time_calls {σ : Type} (R : Rounding) (f : Ptr → Ptr → Ptr → Int → σ → σ)
    (a b c : Ptr) (n iterations : Int) (elapsed : FloatVal) (w : σ) (fuel : Nat)
    (h1 : 1 ≤ iterations) (hn : iterations ≤ 2147483647) (hf : iterations.toNat ≤ fuel) :
    ∃ r, measure_time R f fuel a b c n iterations elapsed w = some r ∧
      (r.calls.length : Int) = iterations ∧
      r.calls = List.replicate iterations.toNat (a, b, c, n) ∧
      r.world = (f a b c n)^[iterations.toNat] w := by
  refine ⟨_, measure_run R f a b c n iterations elapsed w fuel hn hf, ?_, rfl, rfl⟩
  simp only [List.length_replicate]
  omega

/-- Three timed calls of a callee that counts its invocations. -/
theorem measure_time_calls_witness :
    (1 : Int) ≤ 3 ∧ (3 : Int) ≤ 2147483647 ∧ (3 : Int).toNat ≤ 3 ∧
    ∃ r, measure_time Rounding.exact (fun _ _ _ _ (w : Nat) => w + 1) 3 0 1 2 8 3
        (FloatVal.fin 6) 0 = some r ∧
      (r.calls.length : Int) = 3 ∧
      r.calls = List.replicate (3 : Int).toNat (0, 1, 2, 8) ∧
      r.world = (fun (w : Nat) => w + 1)^[(3 : Int).toNat] 0 :=
  ⟨by decide, by decide, by decide,
    measure_time_calls Rounding.exact (fun _ _ _ _ (w : Nat) => w + 1) 0 1 2 8 3
      (FloatVal.fin 6) 0 3 (by decide) (by decide) (by decide)⟩

/-! ## Aligned allocation -/

/-- C9. For every `n > 0`, the address returned by `aligned_alloc_float(n)` is a multiple
of 32, for any allocator that keeps the contract of `_mm_malloc`. -/
theorem aligned_alloc_float_aligned {H : Type} (mm_malloc : H → Nat → Nat → Nat × H)
    (hc : MmMallocContract mm_malloc) (h : H) (n : Nat) (_hn : 0 < n) :
    (aligned_alloc_float mm_malloc h n).1 % 32 = 0 :=
  hc h _ 32

/-- A request for 10 floats from the bump allocator with the heap at address 37 is served
at address 64. -/
theorem aligned_alloc_float_aligned_witness :
    MmMallocContract bump_malloc ∧ 0 < 10 ∧
    (aligned_alloc_float bump_malloc 37 10).1 = 64 ∧
    (aligned_alloc_float bump_malloc 37 10).1 % 32 = 0 :=
  ⟨fun _ _ _ => Nat.mul_mod_left _ _, by decide, by decide,
    aligned_alloc_float_aligned bump_malloc (fun _ _ _ => Nat.mul_mod_left _ _) 37 10
      (by decide)⟩

end Simm

namespace DemoUtils

open Simm

/-! ## Loops that run to completion -/

/-- Total correctness of a fuel loop: an invariant `P` kept by the body, and a measure `μ`
that the body decreases, give a result once the fuel covers the measure; the result
satisfies `P` and fails the loop test. -/
theorem forLoop_total {σ : Type} (cond : σ → Bool) (step : σ → σ) (P : σ → Prop) (μ : σ → Nat)
    (hstep : ∀ s, P s → cond s = true → P (step s) ∧ μ (step s) < μ s) :
    ∀ (fuel : Nat) (s : σ), P s → μ s ≤ fuel →
      ∃ r, forLoop cond step fuel s = some r ∧ P r ∧ cond r = false := by
  intro fuel
  induction fuel with
  | zero =>
    intro s hs hμ
    by_cases hc : cond s = true
    · have := (hstep s hs hc).2
      omega
    · have hc' : cond s = false := by simpa using hc
      exact ⟨s, forLoop_done _ _ _ _ hc', hs, hc'⟩
  | succ fuel ih =>
    intro s hs hμ
    by_cases hc : cond s = true
    · obtain ⟨hP, hlt⟩ := hstep s hs hc
      obtain ⟨r, hr, hPr, hcr⟩ := ih (step s) hP (by omega)
      exact ⟨r, by simpa [forLoop, hc] using hr, hPr, hcr⟩
    · have hc' : cond s = false := by simpa using hc
      exact ⟨s, forLoop_done _ _ _ _ hc', hs, hc'⟩

/-! ## The greatest common divisor -/

theorem gcd_loop (a b : Int) (fuel : Nat) (ha : 0 ≤ a) (hb : 0 ≤ b) (hf : b.toNat ≤ fuel) :
    forLoop (fun s : Int × Int => decide (s.2 ≠ 0)) (fun s => (s.2, Int.tmod s.1 s.2)) fuel
      (a, b) = some ((Int.gcd a b : Int), 0) := by
  obtain ⟨r, hr, ⟨h1, h2, h3⟩, hc⟩ := forLoop_total
    (fun s : Int × Int => decide (s.2 ≠ 0)) (fun s => (s.2, Int.tmod s.1 s.2))
    (fun s => 0 ≤ s.1 ∧ 0 ≤ s.2 ∧ Int.gcd s.1 s.2 = Int.gcd a b) (fun s => s.2.toNat)
    (by
      rintro ⟨x, y⟩ ⟨hx, hy, hg⟩ hc
      simp only [ne_eq, decide_not, Bool.not_eq_true', decide_eq_false_iff_not] at hc
      have hy' : 0 < y := by omega
      have hmod : Int.tmod x y = x % y := Int.tmod_eq_emod hx hy
      have h0 : 0 ≤ x % y := Int.emod_nonneg _ (by omega)
      have hlt : x % y < y := Int.emod_lt_of_pos _ hy'
      refine ⟨⟨hy, by simp only [hmod]; exact h0, ?_⟩, by simp only [hmod]; omega⟩
      show Int.gcd y (Int.tmod x y) = Int.gcd a b
      rw [hmod, ← hg]
      obtain ⟨m, rfl⟩ := Int.eq_ofNat_of_zero_le hx
      obtain ⟨k, rfl⟩ := Int.eq_ofNat_of_zero_le hy
      have hcast : ((m : Int) % (k : Int)) = ((m % k : Nat) : Int) := by norm_cast
      rw [hcast]
      simp only [Int.gcd_def, Int.natAbs_ofNat]
      rw [Nat.gcd_comm k, ← Nat.gcd_rec, Nat.gcd_comm])
    fuel (a, b) ⟨ha, hb, rfl⟩ hf
  obtain ⟨x, y⟩ := r
  simp only [ne_eq, decide_not, Bool.not_eq_false', decide_eq_true_eq] at hc
  simp only at h1 h2 h3 hc
  subst hc
  rw [hr]
  have : (Int.gcd x 0 : Int) = x := by
    rw [Int.gcd_zero_right]
    omega
  rw [← h3, this]

/-- C14. For all non-negative `a` and `b`, `math_gcd(a, b)` and `MathUtils::gcd(a, b)` return
(as soon as the fuel covers `b` passes) the greatest common divisor of `a` and `b`; with
`b = 0` that is `a` itself, so `gcd(a, 0) = a` and `gcd(0, 0) = 0`. -/
theorem math_gcd_spec (a b : Int) (fuel : Nat) (ha : 0 ≤ a) (hb : 0 ≤ b)
    (hf : b.toNat ≤ fuel) :
    math_gcd fuel a b = some (Int.gcd a b : Int) ∧
    MathUtils.gcd fuel a b = some (Int.gcd a b : Int) ∧
    (b = 0 → math_gcd fuel a b = some a ∧ MathUtils.gcd fuel a b = some a) := by
  have hrun := gcd_loop a b fuel ha hb hf
  have h1 : math_gcd fuel a b = some (Int.gcd a b : Int) := by
    simp only [math_gcd, hrun, Option.map_some']
  have h2 : MathUtils.gcd fuel a b = some (Int.gcd a b : Int) := by
    simp only [MathUtils.gcd, hrun, Option.map_some']
  refine ⟨h1, h2, ?_⟩
  rintro rfl
  have : (Int.gcd a 0 : Int) = a := by
    rw [Int.gcd_zero_right]
    omega
  rw [h1, h2, this]
  exact ⟨rfl, rfl⟩

/-- The example of `runExamples`: `gcd(12, 18) = 6`. -/
theorem math_gcd_spec_witness :
    (0 : Int) ≤ 12 ∧ (0 : Int) ≤ 18 ∧ (18 : Int).toNat ≤ 18 ∧
    math_gcd 18 12 18 = some 6 ∧ MathUtils.gcd 18 12 18 = some 6 := by
  obtain ⟨h1, h2, _⟩ := math_gcd_spec 12 18 18 (by decide) (by decide) (by decide)
  have h6 : (Int.gcd 12 18 : Int) = 6 := by decide
  rw [h6] at h1 h2
  exact ⟨by decide, by decide, by decide, h1, h2⟩

/-! ## The factorial -/

theorem factorial_thrown (fuel : Nat) (n : Int) (h : n < 0) :
    MathUtils.factorial fuel n =
      some (.error (DemoException.mk "Factorial of negative number")) := by
  cases fuel <;> simp [MathUtils.factorial, h]

theorem factorial_returns :
    ∀ (fuel : Nat) (n : Int), 0 ≤ n → n ≤ 2147483647 → n.toNat ≤ fuel →
      ∃ v, MathUtils.factorial fuel n = some (.ok v) := by
  intro fuel
  induction fuel with
  | zero =>
    intro n h0 _ hf
    have hn : n = 0 := by omega
    exact ⟨1, by simp [MathUtils.factorial, hn]⟩
  | succ fuel ih =>
    intro n h0 hmax hf
    by_cases hn : n = 0
    · exact ⟨1, by simp [MathUtils.factorial, hn]⟩
    · have hw : wrap32 (n - 1) = n - 1 := wrap32_of_range _ (by omega) (by omega)
      obtain ⟨v, hv⟩ := ih (n - 1) (by omega) (by omega) (by omega)
      refine ⟨wrap64 (n * v), ?_⟩
      have hlt : ¬ n < 0 := by omega
      simp only [MathUtils.factorial, hlt, hn, if_false, hw, hv]

theorem factorial_le_twenty (k : Nat) (hk : k ≤ 20) :
    (Nat.factorial k : Int) ≤ 2432902008176640000 := by
  have h := Nat.factorial_le hk
  have h20 : Nat.factorial 20 = 2432902008176640000 := by decide
  rw [h20] at h
  exact_mod_cast h

theorem factorial_product (k : Int) (h1 : 1 ≤ k) (h20 : k ≤ 20) :
    wrap64 (k * (Nat.factorial (k - 1).toNat : Int)) = (Nat.factorial k.toNat : Int) ∧
    k * (Nat.factorial (k - 1).toNat : Int) = (Nat.factorial k.toNat : Int) := by
  obtain ⟨m, rfl⟩ : ∃ m : Nat, k = (m : Int) + 1 := ⟨(k - 1).toNat, by omega⟩
  have e1 : ((m : Int) + 1 - 1).toNat = m := by omega
  have e2 : ((m : Int) + 1).toNat = m + 1 := by omega
  have hprod : ((m : Int) + 1) * (Nat.factorial m : Int) = (Nat.factorial (m + 1) : Int) := by
    rw [Nat.factorial_succ]
    push_cast
    ring
  have hle := factorial_le_twenty (m + 1) (by omega)
  have hnn : (0 : Int) ≤ (Nat.factorial (m + 1) : Int) := Int.natCast_nonneg _
  rw [e1, e2, hprod]
  refine ⟨?_, rfl⟩
  unfold wrap64
  omega

theorem factorial_exact :
    ∀ (fuel : Nat) (n : Int), 0 ≤ n → n ≤ 20 → n.toNat ≤ fuel →
      MathUtils.factorial fuel n = some (.ok (Nat.factorial n.toNat : Int)) := by
  intro fuel
  induction fuel with
  | zero =>
    intro n h0 _ hf
    have hn : n = 0 := by omega
    simp [MathUtils.factorial, hn]
  | succ fuel ih =>
    intro n h0 hmax hf
    by_cases hn : n = 0
    · simp [MathUtils.factorial, hn]
    · have hw : wrap32 (n - 1) = n - 1 := wrap32_of_range _ (by omega) (by omega)
      have hv := ih (n - 1) (by omega) (by omega) (by omega)
      have hlt : ¬ n < 0 := by omega
      simp only [MathUtils.factorial, hlt, hn, if_false, hw, hv]
      rw [(factorial_product n (by omega) hmax).1]

/-- C15. `MathUtils::factorial(n)` throws a `DemoException` exactly when `n < 0`; for
`0 ≤ n ≤ 20` it returns `n!`, and every product `k * factorial(k - 1)` formed on the way
(`1 ≤ k ≤ n`) equals `k!` without reduction to 64 bits. -/
theorem factorial_spec (n : Int) (fuel : Nat) (hmax : n ≤ 2147483647) (hf : n.toNat ≤ fuel) :
    (n < 0 ↔ ∃ e, MathUtils.factorial fuel n = some (.error e)) ∧
    (n < 0 → MathUtils.factorial fuel n =
      some (.error (DemoException.mk "Factorial of negative number"))) ∧
    (0 ≤ n → n ≤ 20 →
      MathUtils.factorial fuel n = some (.ok (Nat.factorial n.toNat : Int)) ∧
      ∀ k : Int, 1 ≤ k → k ≤ n →
        wrap64 (k * (Nat.factorial (k - 1).toNat : Int)) = (Nat.factorial k.toNat : Int) ∧
        k * (Nat.factorial (k - 1).toNat : Int) = (Nat.factorial k.toNat : Int)) := by
  refine ⟨⟨fun h => ⟨_, factorial_thrown fuel n h⟩, ?_⟩, factorial_thrown fuel n, ?_⟩
  · rintro ⟨e, he⟩
    by_contra hn
    obtain ⟨v, hv⟩ := factorial_returns fuel n (by omega) hmax hf
    rw [hv] at he
    cases he
  · intro h0 h20
    exact ⟨factorial_exact fuel n h0 h20 hf,
      fun k hk1 hkn => factorial_product k hk1 (by omega)⟩

/-- The largest argument of the exact range: `factorial(20) = 2432902008176640000`. -/
theorem factorial_spec_witness :
    (20 : Int) ≤ 2147483647 ∧ (20 : Int).toNat ≤ 20 ∧
    MathUtils.factorial 20 20 = some (.ok 2432902008176640000) ∧
    MathUtils.factorial 20 (-1) =
      some (.error (DemoException.mk "Factorial of negative number")) := by
  obtain ⟨_, _, h⟩ := factorial_spec 20 20 (by decide) (by decide)
  have h20 : (Nat.factorial (20 : Int).toNat : Int) = 2432902008176640000 := by decide
  have := (h (by decide) (by decide)).1
  rw [h20] at this
  exact ⟨by decide, by decide, this, factorial_thrown 20 (-1) (by decide)⟩


/-! ## Rearrangements of an array -/

theorem swap_apply (arr : IntArray) (x y k : Int) :
    swap arr x y k = arr (Equiv.swap x y k) := by
  simp only [swap, IntArray.set, Equiv.swap_apply_def]
  by_cases hy : k = y
  · by_cases hx : k = x
    · rw [if_pos hy, if_pos hx, ← hy, hx]
    · rw [if_pos hy, if_neg hx, if_pos hy]
  · by_cases hx : k = x
    · rw [if_neg hy, if_pos hx, if_pos hx]
    · rw [if_neg hy, if_neg hx, if_neg hx, if_neg hy]

theorem PermOn.refl (arr : IntArray) (low high : Int) : PermOn arr arr low high :=
  ⟨Equiv.refl Int, fun _ _ => rfl, fun _ => rfl⟩

theorem PermOn.trans {a b c : IntArray} {low high : Int} (h1 : PermOn a b low high)
    (h2 : PermOn b c low high) : PermOn a c low high := by
  obtain ⟨σ1, hf1, he1⟩ := h1
  obtain ⟨σ2, hf2, he2⟩ := h2
  refine ⟨σ2.trans σ1, ?_, ?_⟩
  · intro k hk
    simp only [Equiv.trans_apply]
    rw [hf2 k hk, hf1 k hk]
  · intro k
    simp only [Equiv.trans_apply]
    rw [he2 k, he1 (σ2 k)]

theorem PermOn.mono {a b : IntArray} {low high low1 high1 : Int} (h : PermOn a b low high)
    (hl : low1 ≤ low) (hh : high ≤ high1) : PermOn a b low1 high1 := by
  obtain ⟨σ, hf, he⟩ := h
  refine ⟨σ, ?_, he⟩
  intro k hk
  exact hf k (by omega)

theorem PermOn.swap (arr : IntArray) (low high x y : Int) (hx1 : low ≤ x) (hx2 : x ≤ high)
    (hy1 : low ≤ y) (hy2 : y ≤ high) : PermOn arr (swap arr x y) low high := by
  refine ⟨Equiv.swap x y, ?_, fun k => swap_apply arr x y k⟩
  intro k hk
  exact Equiv.swap_apply_of_ne_of_ne (by omega) (by omega)

theorem PermOn.frame {a b : IntArray} {low high : Int} (h : PermOn a b low high) (k : Int)
    (hk : k < low ∨ high < k) : b k = a k := by
  obtain ⟨σ, hf, he⟩ := h
  rw [he k, hf k hk]

/-- A rearrangement within `low .. high` keeps every property shared by the values in
`low .. high`. -/
theorem PermOn.forall {a b : IntArray} {low high : Int} (h : PermOn a b low high)
    (Q : Int → Prop) (hQ : ∀ k, low ≤ k → k ≤ high → Q (a k)) :
    ∀ k, low ≤ k → k ≤ high → Q (b k) := by
  obtain ⟨σ, hf, he⟩ := h
  intro k hk1 hk2
  rw [he k]
  by_cases hin : low ≤ σ k ∧ σ k ≤ high
  · exact hQ (σ k) hin.1 hin.2
  · have hout : σ k < low ∨ high < σ k := by omega
    have hfix := hf (σ k) hout
    have : σ k = k := σ.injective hfix
    rw [this] at hout
    omega

theorem swap_val (arr : IntArray) (x y k : Int) :
    swap arr x y k = if k = y then arr x else if k = x then arr y else arr k := by
  simp only [swap, IntArray.set]

/-! ## The partition loop of `quick_sort` -/

/-- The partition loop on `low .. high` with `low < high` and pivot `arr[high]`: it ends with
`j = high`, the array rearranged within `low .. high - 1`, the cells `low .. i` holding values
`≤ pivot` and the cells `i + 1 .. high - 1` holding values `> pivot`. -/
theorem partition_loop (arr0 : IntArray) (low high : Int) (fuel : Nat) (hlow : 0 ≤ low)
    (hhigh : high ≤ 2147483647) (hlt : low < high) (hf : (high - low).toNat ≤ fuel) :
    ∃ s, forLoop (fun s => decide (s.j < high)) (partition_step (arr0 high)) fuel
        (PartitionState.mk (wrap32 (low - 1)) low arr0) = some s ∧
      low - 1 ≤ s.i ∧ s.i < high ∧ s.j = high ∧ PermOn arr0 s.arr low (high - 1) ∧
      (∀ k, low ≤ k → k ≤ s.i → s.arr k ≤ arr0 high) ∧
      (∀ k, s.i < k → k < high → arr0 high < s.arr k) := by
  have hw0 : wrap32 (low - 1) = low - 1 := wrap32_of_range _ (by omega) (by omega)
  rw [hw0]
  obtain ⟨s, hs, ⟨h1, h2, h3, h4, h5, h6⟩, hc⟩ := forLoop_total
    (fun s : PartitionState => decide (s.j < high)) (partition_step (arr0 high))
    (fun s => low - 1 ≤ s.i ∧ s.i < s.j ∧ s.j ≤ high ∧ PermOn arr0 s.arr low (high - 1) ∧
      (∀ k, low ≤ k → k ≤ s.i → s.arr k ≤ arr0 high) ∧
      (∀ k, s.i < k → k < s.j → arr0 high < s.arr k))
    (fun s => (high - s.j).toNat)
    (by
      rintro ⟨i, j, arr⟩ ⟨h1, h2, h3, h4, h5, h6⟩ hc
      simp only [decide_eq_true_eq] at hc
      simp only at h1 h2 h3 h4 h5 h6 hc
      have hwj : wrap32 (j + 1) = j + 1 := wrap32_of_range _ (by omega) (by omega)
      have hwi : wrap32 (i + 1) = i + 1 := wrap32_of_range _ (by omega) (by omega)
      by_cases hle : arr j ≤ arr0 high
      · simp only [partition_step, hle, if_true, hwj, hwi]
        refine ⟨⟨by omega, by omega, by omega,
          h4.trans (PermOn.swap arr low (high - 1) (i + 1) j (by omega) (by omega) (by omega)
            (by omega)), ?_, ?_⟩, by omega⟩
        · intro k hk1 hk2
          rw [swap_val]
          by_cases hkj : k = j
          · rw [if_pos hkj]
            have : i + 1 = j := by omega
            rw [this]
            exact hle
          · rw [if_neg hkj]
            by_cases hki : k = i + 1
            · rw [if_pos hki]
              exact hle
            · rw [if_neg hki]
              exact h5 k hk1 (by omega)
        · intro k hk1 hk2
          rw [swap_val]
          by_cases hkj : k = j
          · rw [if_pos hkj]
            exact h6 (i + 1) (by omega) (by omega)
          · rw [if_neg hkj, if_neg (by omega)]
            exact h6 k (by omega) (by omega)
      · simp only [partition_step, hle, if_false, hwj]
        refine ⟨⟨h1, by omega, by omega, h4, h5, ?_⟩, by omega⟩
        intro k hk1 hk2
        by_cases hkj : k = j
        · rw [hkj]
          omega
        · exact h6 k hk1 (by omega))
    fuel (PartitionState.mk (low - 1) low arr0)
    ⟨le_refl _, by show low - 1 < low; omega, by show low ≤ high; omega,
      PermOn.refl arr0 low (high - 1),
      fun k hk1 hk2 => (by
        have : k ≤ low - 1 := hk2
        omega),
      fun k hk1 hk2 => (by
        have h1 : low - 1 < k := hk1
        have h2 : k < low := hk2
        omega)⟩
    (by show (high - low).toNat ≤ fuel; exact hf)
  simp only [decide_eq_false_iff_not] at hc
  have hj : s.j = high := by omega
  refine ⟨s, hs, h1, by omega, hj, h4, h5, ?_⟩
  intro k hk1 hk2
  exact h6 k hk1 (by omega)


/-! ## Correctness of `quick_sort` -/

/-- The function `quick_sort(arr, low, high)` returns once the fuel covers the number of cells
`low .. high`; it leaves those cells sorted and the array rearranged within them. -/
theorem quick_sort_correct :
    ∀ (fuel : Nat) (arr : IntArray) (low high : Int), 0 ≤ low → high < 2147483647 →
      (high - low + 1).toNat ≤ fuel →
      ∃ arr3, quick_sort fuel arr low high = some arr3 ∧ SortedOn arr3 low high ∧
        PermOn arr arr3 low high := by
  intro fuel
  induction fuel with
  | zero =>
    intro arr low high _ _ hf
    have hnlt : ¬ low < high := by omega
    refine ⟨arr, by simp only [quick_sort, hnlt, if_false], ?_, PermOn.refl arr low high⟩
    intro x y h1 h2 h3
    omega
  | succ fuel ih =>
    intro arr low high hlow hhigh hf
    by_cases hlt : low < high
    · obtain ⟨s, hs, hi1, hi2, _, hperm, hle, hgt⟩ :=
        partition_loop arr low high (fuel + 1) hlow (by omega) hlt (by omega)
      have hw1 : wrap32 (s.i + 1) = s.i + 1 := wrap32_of_range _ (by omega) (by omega)
      have hw2 : wrap32 (s.i + 1 - 1) = s.i := by
        rw [wrap32_of_range _ (by omega) (by omega)]
        omega
      have hw3 : wrap32 (s.i + 1 + 1) = s.i + 2 := by
        rw [wrap32_of_range _ (by omega) (by omega)]
        omega
      have hhv : s.arr high = arr high := hperm.frame high (Or.inr (by omega))
      have hperm1 : PermOn arr (swap s.arr (s.i + 1) high) low high :=
        (hperm.mono (le_refl _) (by omega)).trans
          (PermOn.swap s.arr low high (s.i + 1) high (by omega) (by omega) (by omega)
            (le_refl _))
      have h1pi : swap s.arr (s.i + 1) high (s.i + 1) = arr high := by
        rw [swap_val]
        by_cases hk : s.i + 1 = high
        · rw [if_pos hk, hk, hhv]
        · rw [if_neg hk, if_pos rfl, hhv]
      have h1le : ∀ k, low ≤ k → k ≤ s.i → swap s.arr (s.i + 1) high k ≤ arr high := by
        intro k hk1 hk2
        rw [swap_val, if_neg (by omega), if_neg (by omega)]
        exact hle k hk1 hk2
      have h1gt : ∀ k, s.i + 2 ≤ k → k ≤ high → arr high < swap s.arr (s.i + 1) high k := by
        intro k hk1 hk2
        rw [swap_val]
        by_cases hk : k = high
        · rw [if_pos hk]
          exact hgt (s.i + 1) (by omega) (by omega)
        · rw [if_neg hk, if_neg (by omega)]
          exact hgt k (by omega) (by omega)
      obtain ⟨arr2, hq2, hs2, hp2⟩ :=
        ih (swap s.arr (s.i + 1) high) low s.i hlow (by omega) (by omega)
      obtain ⟨arr3, hq3, hs3, hp3⟩ := ih arr2 (s.i + 2) high (by omega) hhigh (by omega)
      have hrun : quick_sort (fuel + 1) arr low high = some arr3 := by
        simp only [quick_sort, hlt, if_true, hs, Option.bind_eq_bind, Option.some_bind, hw1,
          hw2, hw3, hq2, hq3]
      have hA : ∀ k, low ≤ k → k ≤ s.i → arr3 k = arr2 k ∧ arr2 k ≤ arr high := by
        intro k hk1 hk2
        exact ⟨hp3.frame k (Or.inl (by omega)),
          hp2.forall (fun v => v ≤ arr high) h1le k hk1 hk2⟩
      have hB : arr3 (s.i + 1) = arr high := by
        rw [hp3.frame (s.i + 1) (Or.inl (by omega)), hp2.frame (s.i + 1) (Or.inr (by omega)),
          h1pi]
      have hC : ∀ k, s.i + 2 ≤ k → k ≤ high → arr high < arr3 k := by
        refine hp3.forall (fun v => arr high < v) ?_
        intro k hk1 hk2
        show arr high < arr2 k
        rw [hp2.frame k (Or.inr (by omega))]
        exact h1gt k hk1 hk2
      refine ⟨arr3, hrun, ?_, hperm1.trans ((hp2.mono (le_refl _) (by omega)).trans
        (hp3.mono (by omega) (le_refl _)))⟩
      intro x y hx hxy hy
      by_cases hy1 : y ≤ s.i
      · rw [(hA x hx (by omega)).1, (hA y (by omega) hy1).1]
        exact hs2 x y hx hxy hy1
      · by_cases hx1 : s.i + 2 ≤ x
        · exact hs3 x y hx1 hxy hy
        · have hxp : arr3 x ≤ arr high := by
            by_cases hx2 : x ≤ s.i
            · rw [(hA x hx hx2).1]
              exact (hA x hx hx2).2
            · have : x = s.i + 1 := by omega
              rw [this, hB]
          have hyp : arr high ≤ arr3 y := by
            by_cases hy2 : s.i + 2 ≤ y
            · exact le_of_lt (hC y hy2 hy)
            · have : y = s.i + 1 := by omega
              rw [this, hB]
          exact le_trans hxp hyp
    · refine ⟨arr, by simp only [quick_sort, hlt, if_false], ?_, PermOn.refl arr low high⟩
      intro x y h1 h2 h3
      have : x = y := by omega
      rw [this]

/-! ## `array_sort` on the cells as a list -/

theorem toList_sorted (arr : IntArray) (n : Nat) (h : SortedOn arr 0 ((n : Int) - 1)) :
    List.Sorted (fun x y => x ≤ y) (arr.toList n) := by
  unfold List.Sorted IntArray.toList
  rw [List.pairwise_map]
  refine (List.pairwise_lt_range n).imp_of_mem ?_
  intro i j hi hj hij
  have hj' := List.mem_range.1 hj
  exact h (i : Int) (j : Int) (by omega) (by omega) (by omega)

theorem toList_perm (arr arr1 : IntArray) (n : Nat) (h : PermOn arr arr1 0 ((n : Int) - 1)) :
    List.Perm (arr1.toList n) (arr.toList n) := by
  obtain ⟨σ, hfix, heq⟩ := h
  have hin : ∀ (τ : Equiv.Perm Int), (∀ k, k < 0 ∨ (n : Int) - 1 < k → τ k = k) →
      ∀ k, 0 ≤ k → k < (n : Int) → 0 ≤ τ k ∧ τ k < (n : Int) := by
    intro τ hτ k hk1 hk2
    by_contra hcon
    have hout : τ k < 0 ∨ (n : Int) - 1 < τ k := by omega
    have : τ k = k := τ.injective (hτ (τ k) hout)
    omega
  have hfix' : ∀ k, k < 0 ∨ (n : Int) - 1 < k → σ.symm k = k := by
    intro k hk
    have := hfix k hk
    exact (Equiv.symm_apply_eq σ).2 this.symm
  have hmemL : ∀ a : Int, a ∈ (List.range n).map (fun (i : Nat) => (i : Int)) ↔
      0 ≤ a ∧ a < (n : Int) := by
    intro a
    simp only [List.mem_map, List.mem_range]
    constructor
    · rintro ⟨i, hi, rfl⟩
      exact ⟨by omega, by omega⟩
    · rintro ⟨h1, h2⟩
      exact ⟨a.toNat, by omega, by omega⟩
  have hndL : ((List.range n).map (fun (i : Nat) => (i : Int))).Nodup :=
    List.Nodup.map (fun i j hij => by simpa using hij) (List.nodup_range n)
  have hperm : List.Perm (((List.range n).map (fun (i : Nat) => (i : Int))).map σ)
      ((List.range n).map (fun (i : Nat) => (i : Int))) := by
    refine (List.perm_ext_iff_of_nodup (List.Nodup.map σ.injective hndL) hndL).2 ?_
    intro a
    rw [hmemL a]
    constructor
    · intro ha
      obtain ⟨k, hk, rfl⟩ := List.mem_map.1 ha
      have hk' := (hmemL k).1 hk
      exact hin σ hfix k hk'.1 hk'.2
    · rintro ⟨h1, h2⟩
      refine List.mem_map.2 ⟨σ.symm a, (hmemL _).2 (hin σ.symm hfix' a h1 h2), ?_⟩
      exact Equiv.apply_symm_apply σ a
  have h1 : arr1.toList n =
      (((List.range n).map (fun (i : Nat) => (i : Int))).map σ).map arr := by
    simp only [IntArray.toList, List.map_map]
    refine List.map_congr_left ?_
    intro i _
    exact heq (i : Int)
  have h2 : arr.toList n = ((List.range n).map (fun (i : Nat) => (i : Int))).map arr := by
    simp only [IntArray.toList, List.map_map]
    rfl
  rw [h1, h2]
  exact hperm.map arr

/-- C11. For every array and every `size ≥ 0`, `array_sort(arr, size)`, that is
`quick_sort(arr, 0, size - 1)`, returns (as soon as the fuel covers `size`); it leaves the
cells `0 .. size - 1` sorted in non-decreasing order and holding a permutation of what they
held before, the cells outside untouched. -/
theorem array_sort_spec (arr : IntArray) (size : Int) (fuel : Nat) (h0 : 0 ≤ size)
    (hmax : size ≤ 2147483647) (hf : size.toNat ≤ fuel) :
    ∃ arr1, array_sort fuel arr size = some arr1 ∧
      SortedOn arr1 0 (size - 1) ∧ PermOn arr arr1 0 (size - 1) ∧
      List.Sorted (fun x y => x ≤ y) (arr1.toList size.toNat) ∧
      List.Perm (arr1.toList size.toNat) (arr.toList size.toNat) := by
  have hw : wrap32 (size - 1) = size - 1 := wrap32_of_range _ (by omega) (by omega)
  obtain ⟨arr1, hrun, hs, hp⟩ :=
    quick_sort_correct fuel arr 0 (size - 1) (le_refl _) (by omega) (by omega)
  have hcast : ((size.toNat : Nat) : Int) - 1 = size - 1 := by omega
  refine ⟨arr1, by simp only [array_sort, hw, hrun], hs, hp, ?_, ?_⟩
  · exact toList_sorted arr1 size.toNat (by rw [hcast]; exact hs)
  · exact toList_perm arr arr1 size.toNat (by rw [hcast]; exact hp)

/-- The array of `demo_array_operations`: `{1, 5, 3, 8, 2, 9, 4}` becomes
`{1, 2, 3, 4, 5, 8, 9}`. -/
theorem array_sort_spec_witness :
    (0 : Int) ≤ 7 ∧ (7 : Int) ≤ 2147483647 ∧ (7 : Int).toNat ≤ 7 ∧
    (array_sort 7 demo_array 7).map (fun a => a.toList 7) = some [1, 2, 3, 4, 5, 8, 9] ∧
    ∃ arr1, array_sort 7 demo_array 7 = some arr1 ∧
      SortedOn arr1 0 (7 - 1) ∧ PermOn demo_array arr1 0 (7 - 1) ∧
      List.Sorted (fun x y => x ≤ y) (arr1.toList (7 : Int).toNat) ∧
      List.Perm (arr1.toList (7 : Int).toNat) (demo_array.toList (7 : Int).toNat) :=
  ⟨by decide, by decide, by decide, by decide,
    array_sort_spec demo_array 7 7 (by decide) (by decide) (by decide)⟩


/-! ## Binary search -/

/-- The loop of `binary_search` on an array sorted on `0 .. size - 1`: it ends either with a
value returned from inside, an offset in range holding `target`, or with nothing returned
and no cell in range holding `target`; every offset read is in range. -/
theorem binary_search_loop (arr : IntArray) (size target : Int) (fuel : Nat) (h0 : 0 ≤ size)
    (hmax : size ≤ 2147483647) (hs : SortedOn arr 0 (size - 1)) (hf : size.toNat ≤ fuel) :
    ∃ r, forLoop (fun s => s.result.isNone && decide (s.left ≤ s.right))
        (binary_search_step arr target) fuel (SearchState.mk 0 (wrap32 (size - 1)) none [])
        = some r ∧
      (∀ i ∈ r.reads, 0 ≤ i ∧ i < size) ∧
      (∀ m, r.result = some m → 0 ≤ m ∧ m < size ∧ arr m = target) ∧
      (r.result = none → ∀ i, 0 ≤ i → i < size → arr i ≠ target) := by
  have hw0 : wrap32 (size - 1) = size - 1 := wrap32_of_range _ (by omega) (by omega)
  rw [hw0]
  obtain ⟨r, hr, ⟨h1, h2, h3, h4, h5, h6⟩, hc⟩ := forLoop_total
    (fun s : SearchState => s.result.isNone && decide (s.left ≤ s.right))
    (binary_search_step arr target)
    (fun s => 0 ≤ s.left ∧ s.right < size ∧ s.left ≤ s.right + 1 ∧
      (∀ i ∈ s.reads, 0 ≤ i ∧ i < size) ∧
      (∀ m, s.result = some m → 0 ≤ m ∧ m < size ∧ arr m = target) ∧
      (s.result = none → ∀ i, 0 ≤ i → i < size → arr i = target → s.left ≤ i ∧ i ≤ s.right))
    (fun s => if s.result.isSome then 0 else (s.right - s.left + 1).toNat)
    (by
      rintro ⟨left, right, result, reads⟩ ⟨h1, h2, h3, h4, h5, h6⟩ hc
      simp only [Bool.and_eq_true, Option.isNone_iff_eq_none, decide_eq_true_eq] at hc
      obtain ⟨hres, hle⟩ := hc
      simp only at h1 h2 h3 h4 h5 h6 hres hle
      subst hres
      have hw1 : wrap32 (right - left) = right - left :=
        wrap32_of_range _ (by omega) (by omega)
      have hdiv : Int.tdiv (right - left) 2 = (right - left) / 2 :=
        Int.tdiv_eq_ediv (by omega) (by omega)
      have hmid : wrap32 (left + Int.tdiv (wrap32 (right - left)) 2)
          = left + (right - left) / 2 := by
        rw [hw1, hdiv]
        exact wrap32_of_range _ (by omega) (by omega)
      have hmid1 : left ≤ left + (right - left) / 2 := by omega
      have hmid2 : left + (right - left) / 2 ≤ right := by omega
      simp only [binary_search_step, hmid]
      generalize left + (right - left) / 2 = mid at hmid1 hmid2
      have hreads : ∀ l : List Int, (∀ i ∈ l, i = mid) →
          ∀ i ∈ reads ++ l, 0 ≤ i ∧ i < size := by
        intro l hl i hi
        rcases List.mem_append.1 hi with h | h
        · exact h4 i h
        · rw [hl i h]
          exact ⟨by omega, by omega⟩
      by_cases heq : arr mid = target
      · rw [if_pos heq]
        refine ⟨⟨h1, h2, h3, hreads [mid] (by simp), ?_, ?_⟩, ?_⟩
        · intro m hm
          simp only [Option.some.injEq] at hm
          subst hm
          exact ⟨by omega, by omega, heq⟩
        · intro h
          cases h
        · simp only [Option.isSome_some, if_true, Option.isSome_none]
          show 0 < if false = true then 0 else (right - left + 1).toNat
          simp only [Bool.false_eq_true, if_false]
          omega
      · rw [if_neg heq]
        by_cases hlt : arr mid < target
        · rw [if_pos hlt]
          have hw : wrap32 (mid + 1) = mid + 1 := wrap32_of_range _ (by omega) (by omega)
          rw [hw]
          refine ⟨⟨by show 0 ≤ mid + 1; omega, h2, by show mid + 1 ≤ right + 1; omega,
            hreads [mid, mid] (by simp), fun m hm => (by cases hm), ?_⟩, ?_⟩
          · intro _ i hi0 hi1 hi
            obtain ⟨hl, hr⟩ := h6 rfl i hi0 hi1 hi
            refine ⟨?_, hr⟩
            show mid + 1 ≤ i
            by_contra hcon
            have := hs i mid hi0 (by omega) (by omega)
            omega
          · show (if (none : Option Int).isSome = true then 0 else (right - (mid + 1) + 1).toNat)
              < if (none : Option Int).isSome = true then 0 else (right - left + 1).toNat
            simp only [Option.isSome_none, Bool.false_eq_true, if_false]
            omega
        · rw [if_neg hlt]
          have hw : wrap32 (mid - 1) = mid - 1 := wrap32_of_range _ (by omega) (by omega)
          rw [hw]
          refine ⟨⟨h1, by show mid - 1 < size; omega, by show left ≤ mid - 1 + 1; omega,
            hreads [mid, mid] (by simp), fun m hm => (by cases hm), ?_⟩, ?_⟩
          · intro _ i hi0 hi1 hi
            obtain ⟨hl, hr⟩ := h6 rfl i hi0 hi1 hi
            refine ⟨hl, ?_⟩
            show i ≤ mid - 1
            by_contra hcon
            have := hs mid i (by omega) (by omega) (by omega)
            omega
          · show (if (none : Option Int).isSome = true then 0 else (mid - 1 - left + 1).toNat)
              < if (none : Option Int).isSome = true then 0 else (right - left + 1).toNat
            simp only [Option.isSome_none, Bool.false_eq_true, if_false]
            omega)
    fuel (SearchState.mk 0 (size - 1) none [])
    ⟨le_refl _, by show size - 1 < size; omega, by show (0 : Int) ≤ size - 1 + 1; omega,
      fun i hi => (by cases hi), fun m hm => (by cases hm),
      fun _ i hi0 hi1 _ => ⟨hi0, by show i ≤ size - 1; omega⟩⟩
    (by
      show (if (none : Option Int).isSome = true then 0 else (size - 1 - 0 + 1).toNat) ≤ fuel
      simp only [Option.isSome_none, Bool.false_eq_true, if_false]
      omega)
  refine ⟨r, hr, h4, h5, ?_⟩
  intro hnone i hi0 hi1 hi
  simp only [hnone, Option.isNone_none, Bool.true_and, decide_eq_false_iff_not] at hc
  have := h6 hnone i hi0 hi1 hi
  omega

/-- C12. On an array sorted in non-decreasing order on its `size ≥ 0` cells,
`binary_search(arr, size, target)` returns (as soon as the fuel covers `size` passes); the
value is `-1` exactly when `target` is in none of the cells, and otherwise an index `r` with
`0 ≤ r < size` and `arr[r] = target`; every index read lies in `[0, size)`. -/
theorem binary_search_spec (arr : IntArray) (size target : Int) (fuel : Nat) (h0 : 0 ≤ size)
    (hmax : size ≤ 2147483647) (hs : SortedOn arr 0 (size - 1)) (hf : size.toNat ≤ fuel) :
    ∃ r reads, binary_search fuel arr size target = some (r, reads) ∧
      (r = -1 ↔ ∀ i, 0 ≤ i → i < size → arr i ≠ target) ∧
      (r ≠ -1 → 0 ≤ r ∧ r < size ∧ arr r = target) ∧
      (∀ i ∈ reads, 0 ≤ i ∧ i < size) := by
  obtain ⟨s, hrun, hreads, hsome, hnone⟩ := binary_search_loop arr size target fuel h0 hmax hs hf
  refine ⟨s.result.getD (-1), s.reads, by simp only [binary_search, hrun, Option.map_some'],
    ?_, ?_, hreads⟩
  · cases hres : s.result with
    | none =>
      simp only [Option.getD_none, true_iff]
      exact hnone hres
    | some m =>
      obtain ⟨hm0, hm1, hm⟩ := hsome m hres
      simp only [Option.getD_some]
      constructor
      · intro h
        omega
      · intro h
        exact absurd hm (h m hm0 hm1)
  · cases hres : s.result with
    | none => simp
    | some m =>
      intro _
      simpa using hsome m hres


/-- The search for 8 in the sorted demo array `{1, 2, 3, 4, 5, 8, 9}` returns index 5 after
reading the cells 3 and 5. -/
theorem binary_search_spec_witness :
    (0 : Int) ≤ 7 ∧ (7 : Int) ≤ 2147483647 ∧ SortedOn sorted_array 0 (7 - 1) ∧
    (7 : Int).toNat ≤ 7 ∧ binary_search 7 sorted_array 7 8 = some (5, [3, 3, 5]) ∧
    ∃ r reads, binary_search 7 sorted_array 7 8 = some (r, reads) ∧
      (r = -1 ↔ ∀ i, 0 ≤ i → i < 7 → sorted_array i ≠ 8) ∧
      (r ≠ -1 → 0 ≤ r ∧ r < 7 ∧ sorted_array r = 8) ∧
      (∀ i ∈ reads, 0 ≤ i ∧ i < 7) := by
  have hs : SortedOn sorted_array 0 (7 - 1) := by
    intro x y hx hxy hy
    have hx6 : x ≤ 6 := by omega
    have hy0 : 0 ≤ y := by omega
    have hy6 : y ≤ 6 := by omega
    interval_cases x <;> interval_cases y <;> first | omega | decide
  exact ⟨by decide, by decide, hs, by decide, by decide,
    binary_search_spec sorted_array 7 8 7 (by decide) (by decide) hs (by decide)⟩

/-! ## Splitting and joining -/

theorem getline_read_cases (d : Char) :
    ∀ (cs token : List Char),
      (∃ t rest, getline_read d cs token = (token ++ t, rest) ∧ cs = t ++ d :: rest ∧ d ∉ t) ∨
      (getline_read d cs token = (token ++ cs, []) ∧ d ∉ cs) := by
  intro cs
  induction cs with
  | nil =>
    intro token
    exact Or.inr ⟨by simp [getline_read], by simp⟩
  | cons c cs ih =>
    intro token
    by_cases hc : c = d
    · refine Or.inl ⟨[], cs, ?_, ?_, by simp⟩
      · simp [getline_read, hc]
      · simp [hc]
    · rcases ih (token ++ [c]) with ⟨t, rest, h1, h2, h3⟩ | ⟨h1, h2⟩
      · refine Or.inl ⟨c :: t, rest, ?_, ?_, ?_⟩
        · simp only [getline_read, hc, if_false, h1]
          simp
        · simp [h2]
        · simp only [List.mem_cons, not_or]
          exact ⟨fun h => hc h.symm, h3⟩
      · refine Or.inr ⟨?_, ?_⟩
        · simp only [getline_read, hc, if_false, h1]
          simp
        · simp only [List.mem_cons, not_or]
          exact ⟨fun h => hc h.symm, h2⟩

theorem split_loop_nil (d : Char) (fuel : Nat) (acc : List (List Char)) :
    StringUtils.split_loop d fuel [] acc = some acc := by
  cases fuel <;> simp [StringUtils.split_loop, getline]

theorem joined_cons_cons (dl p q : List Char) (qs : List (List Char)) :
    joined dl (p :: q :: qs) = p ++ dl ++ joined dl (q :: qs) := by
  simp [joined, List.flatMap_cons, List.append_assoc]

theorem dropFinal_of_not_mem (d : Char) (s : List Char) (h : d ∉ s) : dropFinal d s = s := by
  unfold dropFinal
  rw [if_neg]
  intro hlast
  exact h (List.mem_of_getLast?_eq_some hlast)

theorem dropFinal_delim_last (d : Char) (t : List Char) : dropFinal d (t ++ [d]) = t := by
  simp [dropFinal]

theorem dropFinal_delim_mid (d : Char) (t rest : List Char) (h : rest ≠ []) :
    dropFinal d (t ++ d :: rest) = t ++ d :: dropFinal d rest := by
  obtain ⟨r, rs, rfl⟩ := List.exists_cons_of_ne_nil h
  have h1 : (t ++ d :: r :: rs).getLast? = (r :: rs).getLast? := by
    rw [List.getLast?_append_of_ne_nil _ (by simp)]
    simp [List.getLast?_cons_cons]
  have h2 : (t ++ d :: r :: rs).dropLast = t ++ d :: (r :: rs).dropLast := by
    rw [List.dropLast_append_of_ne_nil _ (by simp)]
    simp
  unfold dropFinal
  rw [h1]
  by_cases hl : (r :: rs).getLast? = some d
  · rw [if_pos hl, if_pos hl, h2]
  · rw [if_neg hl, if_neg hl]

/-- The loop of `split` started with `ss` left in the stream: it ends, and the tokens it adds
are strings that, joined by the delimiter, give back `ss` without a final delimiter. -/
theorem split_loop_spec (d : Char) :
    ∀ (fuel : Nat) (ss : List Char) (acc : List (List Char)), ss.length ≤ fuel →
      ∃ toks, StringUtils.split_loop d fuel ss acc = some (acc ++ toks) ∧
        joined [d] toks = dropFinal d ss ∧ toks.length ≤ ss.length ∧
        (ss = [] → toks = []) ∧ (ss ≠ [] → toks ≠ []) := by
  intro fuel
  induction fuel with
  | zero =>
    intro ss acc hf
    have hnil : ss = [] := List.length_eq_zero.1 (by omega)
    subst hnil
    exact ⟨[], by simp [split_loop_nil], by simp [joined, dropFinal], by simp, by simp, by simp⟩
  | succ fuel ih =>
    intro ss acc hf
    cases ss with
    | nil =>
      exact ⟨[], by simp [split_loop_nil], by simp [joined, dropFinal], by simp, by simp,
        by simp⟩
    | cons c cs =>
      rcases getline_read_cases d (c :: cs) [] with ⟨t, rest, h1, h2, h3⟩ | ⟨h1, h2⟩
      · have hlen : (c :: cs).length = t.length + (rest.length + 1) := by
          rw [h2]
          simp
        have hstep : StringUtils.split_loop d (fuel + 1) (c :: cs) acc
            = StringUtils.split_loop d fuel rest (acc ++ [t]) := by
          simp only [StringUtils.split_loop, getline, h1, List.nil_append]
        by_cases hrest : rest = []
        · subst hrest
          refine ⟨[t], by rw [hstep, split_loop_nil], ?_, by simp, by simp, by simp⟩
          rw [h2]
          simp only [joined, List.flatMap_nil, List.append_nil]
          exact (dropFinal_delim_last d t).symm
        · obtain ⟨toks, hrun, hjoin, hlen2, _, hne⟩ := ih rest (acc ++ [t]) (by omega)
          obtain ⟨q, qs, rfl⟩ := List.exists_cons_of_ne_nil (hne hrest)
          refine ⟨t :: q :: qs, ?_, ?_, ?_, by simp, by simp⟩
          · rw [hstep, hrun]
            simp
          · rw [joined_cons_cons, hjoin, h2, dropFinal_delim_mid d t rest hrest]
            simp
          · simp only [List.length_cons] at hlen hlen2 ⊢
            omega
      · have hstep : StringUtils.split_loop d (fuel + 1) (c :: cs) acc
            = StringUtils.split_loop d fuel [] (acc ++ [c :: cs]) := by
          simp only [StringUtils.split_loop, getline, h1, List.nil_append]
        refine ⟨[c :: cs], by rw [hstep, split_loop_nil], ?_, by simp, by simp, by simp⟩
        rw [dropFinal_of_not_mem d _ h2]
        simp [joined]

theorem join_loop (parts : List (List Char)) (dl : List Char) :
    ∀ (fuel k : Nat) (acc : List Char), 1 ≤ k → k ≤ parts.length → parts.length - k ≤ fuel →
      forLoop (fun s : Nat × List Char => decide (s.1 < parts.length))
        (StringUtils.join_step parts dl) fuel (k, acc) =
        some (parts.length, acc ++ (parts.drop k).flatMap fun q => dl ++ q) := by
  intro fuel
  induction fuel with
  | zero =>
    intro k acc _ hk hf
    have hkl : k = parts.length := by omega
    subst hkl
    rw [forLoop_done _ _ _ _ (by simp)]
    simp
  | succ fuel ih =>
    intro k acc h1 hk hf
    by_cases hlt : k < parts.length
    · have hcond : (fun s : Nat × List Char => decide (s.1 < parts.length)) (k, acc) = true := by
        simpa using hlt
      have hdrop := List.drop_eq_getElem_cons hlt
      have hget : parts.getD k [] = parts[k] := List.getD_eq_getElem _ _ hlt
      have hpos : 0 < k := by omega
      simp only [forLoop, hcond, if_true, StringUtils.join_step, hpos, hget]
      rw [ih (k + 1) _ (by omega) (by omega) (by omega), hdrop]
      simp only [List.flatMap_cons, List.append_assoc]
    · have hkl : k = parts.length := by omega
      subst hkl
      rw [forLoop_done _ _ _ _ (by simp)]
      simp

/-- The method `join` returns the parts written one after the other with the delimiter
between neighbours. -/
theorem join_spec (parts : List (List Char)) (dl : List Char) (fuel : Nat)
    (hf : parts.length ≤ fuel) :
    StringUtils.join fuel parts dl = some (joined dl parts) := by
  unfold StringUtils.join
  cases parts with
  | nil =>
    rw [forLoop_done _ _ _ _ (by simp)]
    simp [joined]
  | cons p ps =>
    obtain ⟨f, rfl⟩ : ∃ f, fuel = f + 1 := ⟨fuel - 1, by simp at hf; omega⟩
    have hcond : (fun s : Nat × List Char => decide (s.1 < (p :: ps).length)) (0, []) = true := by
      simp
    simp only [forLoop, hcond, if_true, StringUtils.join_step, lt_irrefl, if_false]
    have hget : (p :: ps).getD 0 [] = p := rfl
    rw [hget, join_loop (p :: ps) dl f 1 _ (le_refl _) (by simp) (by simp at hf ⊢; omega)]
    simp [joined]

/-- C16. For every string `s` and delimiter `d`, `join(split(s, d), d)` is `s` itself when
`s` does not end with `d`, and `s` without its final character when `s` ends with `d`; both
calls return once the fuel covers the length of `s`, and `split` of the empty string is the
empty list. -/
theorem join_split (s : List Char) (d : Char) (fuel : Nat) (hf : s.length ≤ fuel) :
    ∃ tokens, StringUtils.split fuel s d = some tokens ∧
      (s.getLast? ≠ some d → StringUtils.join fuel tokens [d] = some s) ∧
      (s.getLast? = some d → StringUtils.join fuel tokens [d] = some s.dropLast) ∧
      (s = [] → tokens = []) := by
  obtain ⟨toks, hrun, hjoin, hlen, hnil, _⟩ := split_loop_spec d fuel s [] hf
  refine ⟨toks, by simpa [StringUtils.split] using hrun, ?_, ?_, hnil⟩
  · intro h
    rw [join_spec toks [d] fuel (by omega), hjoin, dropFinal, if_neg h]
  · intro h
    rw [join_spec toks [d] fuel (by omega), hjoin, dropFinal, if_pos h]

/-- The string `a,b,,c,`, which ends with the delimiter: four tokens, joined back to
`a,b,,c`. -/
theorem join_split_witness :
    ("a,b,,c,".toList).length ≤ 7 ∧
    StringUtils.split 7 "a,b,,c,".toList ',' =
      some ["a".toList, "b".toList, [], "c".toList] ∧
    StringUtils.join 7 ["a".toList, "b".toList, [], "c".toList] [','] =
      some "a,b,,c".toList ∧
    ∃ tokens, StringUtils.split 7 "a,b,,c,".toList ',' = some tokens ∧
      ("a,b,,c,".toList.getLast? ≠ some ',' →
        StringUtils.join 7 tokens [','] = some "a,b,,c,".toList) ∧
      ("a,b,,c,".toList.getLast? = some ',' →
        StringUtils.join 7 tokens [','] = some "a,b,,c,".toList.dropLast) ∧
      ("a,b,,c,".toList = [] → tokens = []) :=
  ⟨by decide, by decide, by decide, join_split "a,b,,c,".toList ',' 7 (by decide)⟩


/-! ## The primality test at the largest `int` -/

theorem powMod_eq (p : Nat) :
    ∀ (fuel b e acc : Nat), e < 2 ^ fuel → powMod p fuel b e acc = acc * b ^ e % p := by
  intro fuel
  induction fuel with
  | zero =>
    intro b e acc he
    have h0 : e = 0 := by simpa using he
    subst h0
    simp [powMod]
  | succ fuel ih =>
    intro b e acc he
    by_cases h0 : e = 0
    · subst h0
      simp [powMod]
    · have hhalf : e / 2 < 2 ^ fuel := by
        rw [pow_succ] at he
        omega
      have hsq : (b * b % p) ^ (e / 2) ≡ b ^ (2 * (e / 2)) [MOD p] := by
        rw [pow_mul, pow_two]
        exact (Nat.mod_modEq _ _).pow _
      simp only [powMod, h0, if_false]
      rw [ih _ _ _ hhalf]
      by_cases hodd : e % 2 = 1
      · have he2 : e = 2 * (e / 2) + 1 := by omega
        rw [if_pos hodd]
        have h1 : acc * b % p * (b * b % p) ^ (e / 2) ≡ acc * b * b ^ (2 * (e / 2)) [MOD p] :=
          (Nat.mod_modEq _ _).mul hsq
        have h2 : acc * b * b ^ (2 * (e / 2)) = acc * b ^ (2 * (e / 2) + 1) := by
          rw [pow_succ]
          ring
        rw [h2, ← he2] at h1
        exact h1
      · have he2 : e = 2 * (e / 2) := by omega
        rw [if_neg hodd]
        have h1 : acc * (b * b % p) ^ (e / 2) ≡ acc * b ^ (2 * (e / 2)) [MOD p] :=
          (Nat.ModEq.refl acc).mul hsq
        rw [← he2] at h1
        exact h1

theorem zmod_pow_seven (e : Nat) (he : e < 2 ^ 31) :
    ((7 : ZMod 2147483647) ^ e = 1) ↔ powMod 2147483647 31 7 e 1 = 1 := by
  have hcast : (7 : ZMod 2147483647) ^ e = ((7 ^ e : Nat) : ZMod 2147483647) := by
    rw [Nat.cast_pow]
    rfl
  have hone : (1 : ZMod 2147483647) = ((1 : Nat) : ZMod 2147483647) := by
    rw [Nat.cast_one]
  rw [hcast, hone, ZMod.natCast_eq_natCast_iff', powMod_eq 2147483647 31 7 e 1 he, one_mul]

theorem prime_int_max : Nat.Prime 2147483647 := by
  refine lucas_primality 2147483647 7 ?_ ?_
  · exact (zmod_pow_seven 2147483646 (by decide)).2 (by decide)
  · intro q hq hdvd
    have hfac : (2147483647 - 1 : Nat) = 2 * (3 * (3 * (7 * (11 * (31 * (151 * 331)))))) := by
      decide
    rw [hfac] at hdvd
    have hq2 : q = 2 ∨ q = 3 ∨ q = 7 ∨ q = 11 ∨ q = 31 ∨ q = 151 ∨ q = 331 := by
      have key : ∀ r : Nat, r.Prime → q ∣ r → q = r :=
        fun r hr h => (Nat.prime_dvd_prime_iff_eq hq hr).1 h
      rcases (Nat.Prime.dvd_mul hq).1 hdvd with h | hdvd
      · exact Or.inl (key 2 (by norm_num) h)
      rcases (Nat.Prime.dvd_mul hq).1 hdvd with h | hdvd
      · exact Or.inr (Or.inl (key 3 (by norm_num) h))
      rcases (Nat.Prime.dvd_mul hq).1 hdvd with h | hdvd
      · exact Or.inr (Or.inl (key 3 (by norm_num) h))
      rcases (Nat.Prime.dvd_mul hq).1 hdvd with h | hdvd
      · exact Or.inr (Or.inr (Or.inl (key 7 (by norm_num) h)))
      rcases (Nat.Prime.dvd_mul hq).1 hdvd with h | hdvd
      · exact Or.inr (Or.inr (Or.inr (Or.inl (key 11 (by norm_num) h))))
      rcases (Nat.Prime.dvd_mul hq).1 hdvd with h | hdvd
      · exact Or.inr (Or.inr (Or.inr (Or.inr (Or.inl (key 31 (by norm_num) h)))))
      rcases (Nat.Prime.dvd_mul hq).1 hdvd with h | hdvd
      · exact Or.inr (Or.inr (Or.inr (Or.inr (Or.inr (Or.inl (key 151 (by norm_num) h))))))
      · exact Or.inr (Or.inr (Or.inr (Or.inr (Or.inr (Or.inr (key 331 (by norm_num) hdvd))))))
    rcases hq2 with rfl | rfl | rfl | rfl | rfl | rfl | rfl
    · show (7 : ZMod 2147483647) ^ 1073741823 ≠ 1
      exact fun h => absurd ((zmod_pow_seven _ (by decide)).1 h) (by decide)
    · show (7 : ZMod 2147483647) ^ 715827882 ≠ 1
      exact fun h => absurd ((zmod_pow_seven _ (by decide)).1 h) (by decide)
    · show (7 : ZMod 2147483647) ^ 306783378 ≠ 1
      exact fun h => absurd ((zmod_pow_seven _ (by decide)).1 h) (by decide)
    · show (7 : ZMod 2147483647) ^ 195225786 ≠ 1
      exact fun h => absurd ((zmod_pow_seven _ (by decide)).1 h) (by decide)
    · show (7 : ZMod 2147483647) ^ 69273666 ≠ 1
      exact fun h => absurd ((zmod_pow_seven _ (by decide)).1 h) (by decide)
    · show (7 : ZMod 2147483647) ^ 14221746 ≠ 1
      exact fun h => absurd ((zmod_pow_seven _ (by decide)).1 h) (by decide)
    · show (7 : ZMod 2147483647) ^ 6487866 ≠ 1
      exact fun h => absurd ((zmod_pow_seven _ (by decide)).1 h) (by decide)

theorem forLoop_exit {σ : Type} (cond : σ → Bool) (step : σ → σ) :
    ∀ (fuel : Nat) (s r : σ), forLoop cond step fuel s = some r → cond r = false := by
  intro fuel
  induction fuel with
  | zero =>
    intro s r h
    by_cases hc : cond s = true
    · simp [forLoop, hc] at h
    · simp only [forLoop, hc] at h
      cases h
      simpa using hc
  | succ fuel ih =>
    intro s r h
    by_cases hc : cond s = true
    · simp only [forLoop, hc, if_true] at h
      exact ih (step s) r h
    · simp only [forLoop, hc] at h
      cases h
      simpa using hc

theorem wrap32_le_max (x : Int) : wrap32 x ≤ 2147483647 := by
  unfold wrap32
  omega

/-- The loop of `math_is_prime` for `n = 2147483647`: the test `i * i <= n` on the reduced
product never fails, so the loop can only be left by `return false`; it is, after at most
`n - 1` passes, at the first divisor of `n` from 2 on. -/
theorem prime_loop_int_max (fuel : Nat) :
    (∀ r, forLoop (fun s => s.result.isNone && decide (wrap32 (s.i * s.i) ≤ 2147483647))
        (math_is_prime_step 2147483647) fuel (PrimeState.mk 2 none) = some r →
      r.result = some false) ∧
    (2147483647 ≤ fuel →
      ∃ r, forLoop (fun s => s.result.isNone && decide (wrap32 (s.i * s.i) ≤ 2147483647))
        (math_is_prime_step 2147483647) fuel (PrimeState.mk 2 none) = some r) := by
  have hinv : ∀ s : PrimeState,
      (2 ≤ s.i ∧ s.i ≤ 2147483647 ∧ (s.result = none ∨ s.result = some false)) →
      (s.result.isNone && decide (wrap32 (s.i * s.i) ≤ 2147483647)) = true →
      (2 ≤ (math_is_prime_step 2147483647 s).i ∧
        (math_is_prime_step 2147483647 s).i ≤ 2147483647 ∧
        ((math_is_prime_step 2147483647 s).result = none ∨
          (math_is_prime_step 2147483647 s).result = some false)) ∧
      (if (math_is_prime_step 2147483647 s).result.isSome then 0
        else (2147483647 - (math_is_prime_step 2147483647 s).i + 1).toNat) <
      (if s.result.isSome then 0 else (2147483647 - s.i + 1).toNat) := by
    rintro ⟨i, result⟩ ⟨h1, h2, _⟩ hc
    simp only [Bool.and_eq_true, Option.isNone_iff_eq_none] at hc
    obtain ⟨hres, _⟩ := hc
    simp only at h1 h2 hres
    subst hres
    by_cases hdiv : Int.tmod 2147483647 i = 0
    · simp only [math_is_prime_step, hdiv, if_true, Option.isSome_some, Option.isSome_none,
        Bool.false_eq_true, if_false]
      exact ⟨⟨h1, h2, by simp⟩, by omega⟩
    · have hne : i ≠ 2147483647 := by
        rintro rfl
        exact hdiv (by decide)
      have hw : wrap32 (i + 1) = i + 1 := wrap32_of_range _ (by omega) (by omega)
      simp only [math_is_prime_step, hdiv, if_false, hw, Option.isSome_none,
        Bool.false_eq_true]
      exact ⟨⟨by omega, by omega, by simp⟩, by omega⟩
  constructor
  · intro r hr
    have hP := forLoop_invariant _ _
      (fun s : PrimeState => 2 ≤ s.i ∧ s.i ≤ 2147483647 ∧
        (s.result = none ∨ s.result = some false))
      (fun s hs hc => (hinv s hs hc).1) fuel _ r
      ⟨le_refl _, by decide, Or.inl rfl⟩ hr
    have hexit := forLoop_exit _ _ fuel _ r hr
    rcases hP.2.2 with h | h
    · simp [h, wrap32_le_max] at hexit
    · exact h
  · intro hf
    obtain ⟨r, hr, _, _⟩ := forLoop_total _ _
      (fun s : PrimeState => 2 ≤ s.i ∧ s.i ≤ 2147483647 ∧
        (s.result = none ∨ s.result = some false))
      (fun s => if s.result.isSome then 0 else (2147483647 - s.i + 1).toNat)
      hinv fuel (PrimeState.mk 2 none) ⟨le_refl _, by decide, Or.inl rfl⟩
      (by
        simp only [Option.isSome_none, Bool.false_eq_true, if_false]
        omega)
    exact ⟨r, hr⟩

/-- C13, the failing input. For `n = 2147483647`, which is prime, `math_is_prime` and
`MathUtils::isPrime` return `false`: the reduced product `i * i` never exceeds `n`, the loop
runs on to `i = n`, and `n % n == 0`.  Whatever the fuel, neither returns `true`. -/
theorem math_is_prime_int_max :
    Nat.Prime 2147483647 ∧
    math_is_prime 2147483647 2147483647 = some false ∧
    MathUtils.isPrime 2147483647 2147483647 = some false ∧
    (∀ fuel, math_is_prime fuel 2147483647 ≠ some true) ∧
    (∀ fuel, MathUtils.isPrime fuel 2147483647 ≠ some true) := by
  have hgt : ¬ ((2147483647 : Int) ≤ 1) := by decide
  have hany : ∀ fuel b, math_is_prime fuel 2147483647 = some b → b = false := by
    intro fuel b h
    simp only [math_is_prime, hgt, if_false, Option.map_eq_some'] at h
    obtain ⟨r, hr, rfl⟩ := h
    rw [(prime_loop_int_max fuel).1 r hr]
    rfl
  have hsame : ∀ fuel, MathUtils.isPrime fuel 2147483647 = math_is_prime fuel 2147483647 :=
    fun _ => rfl
  have hrun : math_is_prime 2147483647 2147483647 = some false := by
    obtain ⟨r, hr⟩ := (prime_loop_int_max 2147483647).2 (le_refl _)
    have hres := (prime_loop_int_max 2147483647).1 r hr
    simp only [math_is_prime, hgt, if_false, hr, Option.map_some', hres]
    rfl
  refine ⟨prime_int_max, hrun, by rw [hsame]; exact hrun, ?_, ?_⟩
  · intro fuel h
    exact absurd (hany fuel true h) (by decide)
  · intro fuel h
    rw [hsame] at h
    exact absurd (hany fuel true h) (by decide)

end DemoUtils
